import Mathlib

/-!
Verification of the linked-list containers of this repository.

* `Fourth` embeds `src/fourth.rs`: the `Rc<RefCell<Node>>` doubly-linked list.
  Nodes live in an explicit store (allocation id ↦ node record) and every node
  record carries the strong reference count of its `Rc` allocation, so that the
  runtime checks of `RefCell::borrow_mut` and `Rc::try_unwrap` can be stated and
  settled faithfully.
* `Silly` embeds `src/silly1.rs`: the two-stack finger deque.
* `Third` embeds `src/third_with_arc.rs`: the persistent shared list.
* `Fifth` embeds `src/fifth.rs`: the tail-pointer singly-linked queue, with the
  raw tail pointer modelled as an optional allocation id whose dereference is
  only defined while the target allocation is live.
-/

set_option autoImplicit false

/-- The allocation id of the last entry of an abstract node description,
or the seed `pv` when the description is empty. -/
def lastLink {T : Type} (pv : Option Nat) : List (Nat × T) → Option Nat
  | [] => pv
  | (i, _) :: rest => lastLink (some i) rest

namespace Fourth

variable {T : Type}

/-- One `Node<T>` allocation of `fourth.rs`: element, the two links (allocation
ids), and the strong count of the `Rc` that owns the allocation. -/
structure FNode (T : Type) where
  elem : T
  next : Option Nat
  prev : Option Nat
  rc : Nat
  deriving Repr, DecidableEq

/-- The node store: allocation id ↦ node, as an association list. -/
def Store (T : Type) : Type := List (Nat × FNode T)

/-- The `List<T>` struct of `fourth.rs` together with its heap of nodes.
`fresh` is the next unused allocation id. -/
structure FState (T : Type) where
  store : List (Nat × FNode T)
  head : Option Nat
  tail : Option Nat
  fresh : Nat
  deriving Repr, DecidableEq

/-- The runtime failures `fourth.rs` can hit: a `RefCell` borrow conflict, a
failed `Rc::try_unwrap(..).ok().unwrap()`, or reading a dead allocation. -/
inductive Panic where
  | borrowConflict
  | unwrapFailed
  | corrupt
  deriving Repr, DecidableEq

/-- Look up an allocation id in the store. -/
def lookupN : List (Nat × FNode T) → Nat → Option (FNode T)
  | [], _ => none
  | (j, nd) :: rest, i => if i = j then some nd else lookupN rest i

/-- Rewrite the node stored at an allocation id. -/
def updateN (st : List (Nat × FNode T)) (i : Nat) (f : FNode T → FNode T) :
    List (Nat × FNode T) :=
  st.map (fun p => (p.1, if p.1 = i then f p.2 else p.2))

/-- Deallocate: remove an id from the store. -/
def removeN (st : List (Nat × FNode T)) (i : Nat) : List (Nat × FNode T) :=
  st.filter (fun p => p.1 ≠ i)

/-- Increment the strong count of an allocation (an `Rc::clone`). -/
def incRc (st : List (Nat × FNode T)) (i : Nat) : List (Nat × FNode T) :=
  updateN st i (fun nd => { nd with rc := nd.rc + 1 })

/-- Decrement the strong count of an allocation (dropping one `Rc`). -/
def decRc (st : List (Nat × FNode T)) (i : Nat) : List (Nat × FNode T) :=
  updateN st i (fun nd => { nd with rc := nd.rc - 1 })

/-- Drop a link value: dropping `Some(rc)` decrements its target's count,
dropping `None` does nothing. -/
def dropLink (st : List (Nat × FNode T)) : Option Nat → List (Nat × FNode T)
  | none => st
  | some i => decRc st i

/-- The allocation ids present in a store. -/
def keysN (st : List (Nat × FNode T)) : List Nat := st.map Prod.fst

/-- `List::new()` of `fourth.rs`. -/
def newList : FState T := ⟨[], none, none, 0⟩

/-- `List::push_front` of `fourth.rs`, line for line: allocate the node with
count 1; if a head exists, set `old_head.prev = Some(new_head.clone())`
(cloning bumps the new node's count, the overwritten link value is dropped),
move the taken head link into `new_head.next`, and move `new_head` into
`self.head`; otherwise clone `new_head` into `self.tail` (dropping the
overwritten tail link value) and move it into `self.head`. -/
def pushFront (s : FState T) (e : T) : FState T :=
  let id := s.fresh
  let st0 : List (Nat × FNode T) := (id, ⟨e, none, none, 1⟩) :: s.store
  match s.head with
  | some oldH =>
      let st1 := incRc st0 id
      let st2 :=
        match lookupN st1 oldH with
        | some nd => dropLink (updateN st1 oldH (fun n => { n with prev := some id })) nd.prev
        | none => st1
      let st3 :=
        match lookupN st2 id with
        | some nd => dropLink (updateN st2 id (fun n => { n with next := some oldH })) nd.next
        | none => st2
      ⟨st3, some id, s.tail, id + 1⟩
  | none =>
      let st1 := dropLink (incRc st0 id) s.tail
      ⟨st1, some id, some id, id + 1⟩

/-- The final step of `pop_front`: `Rc::try_unwrap(old_head).ok().unwrap()`.
It succeeds exactly when the popped allocation's strong count is 1; the node is
then deallocated and its remaining link fields are dropped. -/
def finishPop (st : List (Nat × FNode T)) (oldH : Nat) (newHead newTail : Option Nat)
    (fresh : Nat) : Except Panic (Option T × FState T) :=
  match lookupN st oldH with
  | none => .error .corrupt
  | some nd =>
      if nd.rc = 1 then
        .ok (some nd.elem, ⟨dropLink (dropLink (removeN st oldH) nd.next) nd.prev,
                            newHead, newTail, fresh⟩)
      else
        .error .unwrapFailed

/-- `List::pop_front` of `fourth.rs`. The `RefMut` obtained from
`old_head.borrow_mut()` in the match scrutinee lives for the whole `match`, so
the inner `new_head.borrow_mut()` is a borrow conflict when the two `Rc`s point
at the same cell; `new_head.borrow_mut().prev.take()` drops the taken link
(decrementing the popped node's count), and in the `None` arm
`self.tail.take()` drops the tail link. -/
def popFront (s : FState T) : Except Panic (Option T × FState T) :=
  match s.head with
  | none => .ok (none, s)
  | some oldH =>
      match lookupN s.store oldH with
      | none => .error .corrupt
      | some nd =>
          let st1 := updateN s.store oldH (fun n => { n with next := none })
          match nd.next with
          | some newH =>
              if newH = oldH then .error .borrowConflict
              else
                match lookupN st1 newH with
                | none => .error .corrupt
                | some ndj =>
                    let st2 := dropLink (updateN st1 newH (fun n => { n with prev := none }))
                                  ndj.prev
                    finishPop st2 oldH (some newH) s.tail s.fresh
          | none =>
              let st2 := dropLink st1 s.tail
              finishPop st2 oldH none none s.fresh

/-- Mirror a node: swap its `next` and `prev` links. -/
def mirrorNode (nd : FNode T) : FNode T :=
  { nd with next := nd.prev, prev := nd.next }

/-- Mirror every node of a store. -/
def mirrorStore (st : List (Nat × FNode T)) : List (Nat × FNode T) :=
  st.map (fun p => (p.1, mirrorNode p.2))

/-- Mirror a list state: swap `head` with `tail` and every `next` with `prev`.
A mirrored state behaves exactly like the original read back to front. -/
def mirrorState (s : FState T) : FState T :=
  ⟨mirrorStore s.store, s.tail, s.head, s.fresh⟩

/-- Modelled from the spec: `push_back` is absent from `src/fourth.rs`;
§4.1 defines it as "Symmetric for `push_back`", i.e. `push_front` with the
roles of head/tail and next/prev exchanged. -/
def pushBack (s : FState T) (e : T) : FState T :=
  mirrorState (pushFront (mirrorState s) e)

/-- Modelled from the spec: `pop_back` is absent from `src/fourth.rs`;
§4.1 defines it as "Symmetric for `pop_back`". -/
def popBack (s : FState T) : Except Panic (Option T × FState T) :=
  match popFront (mirrorState s) with
  | .error e => .error e
  | .ok (v, s') => .ok (v, mirrorState s')

/-- Modelled from the spec: `peek_front` is absent from `src/fourth.rs`;
§4.2 defines it as "return a read-only view of the endpoint element without
transferring ownership". -/
def peekFront (s : FState T) : Option T :=
  (s.head.bind (lookupN s.store)).map (·.elem)

/-- Modelled from the spec: `peek_back` is absent from `src/fourth.rs`;
§4.2, symmetric to `peek_front`. -/
def peekBack (s : FState T) : Option T :=
  (s.tail.bind (lookupN s.store)).map (·.elem)

/-- Modelled from the spec: `src/fourth.rs` has no `Drop` impl; §4.3 requires
an iterative teardown that repeatedly detaches and releases the current head
and stops when the head link is empty.  One loop iteration pops the front
node; the fuel argument only bounds the iteration count of the loop. -/
def teardownLoop : Nat → FState T → Except Panic (FState T)
  | 0, s => .ok s
  | n + 1, s =>
      match s.head with
      | none => .ok s
      | some _ =>
          match popFront s with
          | .error e => .error e
          | .ok (_, s') => teardownLoop n s'

/-- Modelled from the spec (§4.3): discarding the list runs the teardown loop;
the store size is an upper bound for the number of iterations, and the loop
stops as soon as the head link is empty. -/
def teardown (s : FState T) : Except Panic (FState T) :=
  teardownLoop s.store.length s

/-- The allocation ids of an abstract front-to-back description. -/
def idsOf (l : List (Nat × T)) : List Nat := l.map Prod.fst

/-- `chainSeg store stop pv link l` : starting at `link`, the store contains
the doubly-linked segment described by `l` (front to back); the first node's
`prev` is `pv`, the link leaving the last node is `stop`, and every node of the
segment has strong count 2 (it is held by exactly two of: the list's `head`
link, its predecessor's `next`, its successor's `prev`, the list's `tail`
link). -/
def chainSeg (store : List (Nat × FNode T)) (stop : Option Nat) :
    Option Nat → Option Nat → List (Nat × T) → Prop
  | _, link, [] => link = stop
  | pv, link, (i, e) :: rest =>
      link = some i ∧
      (match lookupN store i with
       | none => False
       | some nd =>
           nd.elem = e ∧ nd.prev = pv ∧ nd.rc = 2 ∧
           chainSeg store stop (some i) nd.next rest)

/-- `models s l` : the state `s` is exactly the well-formed doubly-linked list
whose nodes, front to back, are described by `l` (allocation id and element).
The store holds precisely those allocations, ids are distinct and below the
allocation counter. -/
def models (s : FState T) (l : List (Nat × T)) : Prop :=
  chainSeg s.store none none s.head l ∧
  s.tail = lastLink none l ∧
  (keysN s.store).Perm (idsOf l) ∧
  (idsOf l).Nodup ∧
  ∀ i ∈ idsOf l, i < s.fresh

/-- Walk forward from a link along `next`, collecting elements (fuel-bounded,
the fuel only has to cover the list length). -/
def walkFwd (store : List (Nat × FNode T)) : Nat → Option Nat → List T
  | 0, _ => []
  | _ + 1, none => []
  | fuel + 1, some i =>
      match lookupN store i with
      | none => []
      | some nd => nd.elem :: walkFwd store fuel nd.next

/-- Walk backward from a link along `prev`, collecting elements. -/
def walkBwd (store : List (Nat × FNode T)) : Nat → Option Nat → List T
  | 0, _ => []
  | _ + 1, none => []
  | fuel + 1, some i =>
      match lookupN store i with
      | none => []
      | some nd => nd.elem :: walkBwd store fuel nd.prev

/-- The doubly-linked invariant of spec §3/§8, stated directly on a state:
head and tail are empty together, the head's `prev` and the tail's `next` are
empty, every node's non-empty `next` has a `prev` referring back (and
symmetrically), and the forward walk from the head is the reverse of the
backward walk from the tail. -/
def Inv (s : FState T) : Prop :=
  (s.head = none ↔ s.tail = none) ∧
  (∀ h, s.head = some h → ∃ nd, lookupN s.store h = some nd ∧ nd.prev = none) ∧
  (∀ t, s.tail = some t → ∃ nd, lookupN s.store t = some nd ∧ nd.next = none) ∧
  (∀ i nd j, lookupN s.store i = some nd → nd.next = some j →
      ∃ ndj, lookupN s.store j = some ndj ∧ ndj.prev = some i) ∧
  (∀ i nd j, lookupN s.store i = some nd → nd.prev = some j →
      ∃ ndj, lookupN s.store j = some ndj ∧ ndj.next = some i) ∧
  walkFwd s.store s.store.length s.head =
    (walkBwd s.store s.store.length s.tail).reverse

/-- A call to one of the two public operations implemented in
`src/fourth.rs`. -/
inductive FrOp (T : Type) where
  | push (e : T)
  | pop

/-- Run a sequence of `push_front`/`pop_front` calls, propagating any runtime
panic. -/
def runFront : List (FrOp T) → FState T → Except Panic (FState T)
  | [], s => .ok s
  | .push e :: ops, s => runFront ops (pushFront s e)
  | .pop :: ops, s =>
      match popFront s with
      | .error p => .error p
      | .ok (_, s') => runFront ops s'

/-- A call to one of the four end operations (the back operations are the
spec-modelled mirrors). -/
inductive FOp (T : Type) where
  | pushF (e : T)
  | pushB (e : T)
  | popF
  | popB

/-- Run a mixed sequence of `push_front`/`push_back`/`pop_front`/`pop_back`,
propagating any runtime panic. -/
def runAll : List (FOp T) → FState T → Except Panic (FState T)
  | [], s => .ok s
  | .pushF e :: ops, s => runAll ops (pushFront s e)
  | .pushB e :: ops, s => runAll ops (pushBack s e)
  | .popF :: ops, s =>
      match popFront s with
      | .error p => .error p
      | .ok (_, s') => runAll ops s'
  | .popB :: ops, s =>
      match popBack s with
      | .error p => .error p
      | .ok (_, s') => runAll ops s'

/-- Push a whole list of elements with `push_front`, first element first. -/
def pushAllF (s : FState T) : List T → FState T
  | [] => s
  | v :: vs => pushAllF (pushFront s v) vs

/-- Call `pop_front` `n` times, collecting the returned values. -/
def popN : Nat → FState T → Except Panic (List (Option T) × FState T)
  | 0, s => .ok ([], s)
  | n + 1, s =>
      match popFront s with
      | .error p => .error p
      | .ok (v, s') =>
          match popN n s' with
          | .error p => .error p
          | .ok (vs, s'') => .ok (v :: vs, s'')

end Fourth

namespace Silly

variable {T : Type}

/-- The finger deque of `src/silly1.rs`: two exclusive-ownership stacks.  A
`Stack<T>` is a `Box` chain, which this embedding represents by the list of its
elements top to bottom; `push`/`push_node` prepend and `pop`/`pop_node` remove
the head, so stack order is preserved exactly. -/
structure DL (T : Type) where
  left : List T
  right : List T
  deriving Repr, DecidableEq

/-- `List::new` of `silly1.rs`. -/
def newDL : DL T := ⟨[], []⟩

/-- `List::push_left`: `self.left.push(elem)`. -/
def pushLeft (s : DL T) (e : T) : DL T := ⟨e :: s.left, s.right⟩

/-- `List::push_right`: `self.right.push(elem)`. -/
def pushRight (s : DL T) (e : T) : DL T := ⟨s.left, e :: s.right⟩

/-- `List::pop_left`: `self.left.pop()` (via `Stack::pop_node`). -/
def popLeft (s : DL T) : Option T × DL T :=
  match s.left with
  | [] => (none, s)
  | x :: xs => (some x, ⟨xs, s.right⟩)

/-- `List::pop_right`: `self.right.pop()`. -/
def popRight (s : DL T) : Option T × DL T :=
  match s.right with
  | [] => (none, s)
  | x :: xs => (some x, ⟨s.left, xs⟩)

/-- `List::peek_left`. -/
def peekLeft (s : DL T) : Option T := s.left.head?

/-- `List::peek_right`. -/
def peekRight (s : DL T) : Option T := s.right.head?

/-- `List::go_left`: detach the left stack's top node and push that same node
onto the right stack; returns whether a step occurred. -/
def goLeft (s : DL T) : Bool × DL T :=
  match s.left with
  | [] => (false, s)
  | x :: xs => (true, ⟨xs, x :: s.right⟩)

/-- `List::go_right`. -/
def goRight (s : DL T) : Bool × DL T :=
  match s.right with
  | [] => (false, s)
  | x :: xs => (true, ⟨x :: s.left, xs⟩)

/-- `while list.go_left() {}` — repeat `go_left` until it returns `false`
(i.e. until the left stack is empty).  Each unfolding is exactly one
`go_left` call that returned `true`. -/
def goLeftAll : DL T → DL T
  | ⟨[], r⟩ => ⟨[], r⟩
  | ⟨x :: xs, r⟩ => goLeftAll ⟨xs, x :: r⟩
termination_by s => s.left.length

/-- `while list.go_right() {}`. -/
def goRightAll : DL T → DL T
  | ⟨l, []⟩ => ⟨l, []⟩
  | ⟨l, x :: xs⟩ => goRightAll ⟨x :: l, xs⟩
termination_by s => s.right.length

/-- Push each element in order with `push_left`. -/
def pushAllLeft (s : DL T) : List T → DL T
  | [] => s
  | v :: vs => pushAllLeft (pushLeft s v) vs

/-- Push each element in order with `push_right`. -/
def pushAllRight (s : DL T) : List T → DL T
  | [] => s
  | v :: vs => pushAllRight (pushRight s v) vs

/-- Call `pop_right` `n` times, collecting the results. -/
def popNRight : Nat → DL T → List (Option T) × DL T
  | 0, s => ([], s)
  | n + 1, s =>
      let (v, s') := popRight s
      let (vs, s'') := popNRight n s'
      (v :: vs, s'')

/-- Call `pop_left` `n` times, collecting the results. -/
def popNLeft : Nat → DL T → List (Option T) × DL T
  | 0, s => ([], s)
  | n + 1, s =>
      let (v, s') := popLeft s
      let (vs, s'') := popNLeft n s'
      (v :: vs, s'')

end Silly

namespace Third

variable {T : Type}

/-- The persistent list of `src/third_with_arc.rs`, embedded by the sequence of
elements of its `Arc` chain from the head. -/
def PList (T : Type) : Type := List T

/-- `List::new`. -/
def newP : PList T := []

/-- `List::append`: `List { head: Some(Arc::new(Node { elem, next: self.head.clone() })) }`. -/
def appendP (s : PList T) (e : T) : PList T := e :: s

/-- `List::tail`: `self.head.as_ref().and_then(|node| node.next.clone())` —
the empty list is mapped to the empty list, a non-empty list to its rest. -/
def tailP : PList T → PList T
  | [] => []
  | _ :: xs => xs

/-- `List::head`: `self.head.as_ref().map(|node| &node.elem)`. -/
def headP (s : PList T) : Option T := s.head?

end Third

namespace Fifth

variable {T : Type}

/-- One node of the `src/fifth.rs` queue. -/
structure QNode (T : Type) where
  elem : T
  next : Option Nat
  deriving Repr, DecidableEq

/-- The `List<T>` of `fifth.rs`: a `Box` chain from `head` plus a raw `*mut`
tail pointer, modelled as an optional allocation id (`none` = null).  The
pointer may dangle; dereferencing it is only defined while the target
allocation is in the store. -/
structure QState (T : Type) where
  store : List (Nat × QNode T)
  head : Option Nat
  tailPtr : Option Nat
  fresh : Nat
  deriving Repr, DecidableEq

/-- Look up an allocation id. -/
def lookupQ : List (Nat × QNode T) → Nat → Option (QNode T)
  | [], _ => none
  | (j, nd) :: rest, i => if i = j then some nd else lookupQ rest i

/-- Rewrite the node stored at an id. -/
def updateQ (st : List (Nat × QNode T)) (i : Nat) (f : QNode T → QNode T) :
    List (Nat × QNode T) :=
  st.map (fun p => (p.1, if p.1 = i then f p.2 else p.2))

/-- Deallocate an id. -/
def removeQ (st : List (Nat × QNode T)) (i : Nat) : List (Nat × QNode T) :=
  st.filter (fun p => p.1 ≠ i)

/-- The ids present in a store. -/
def keysQ (st : List (Nat × QNode T)) : List Nat := st.map Prod.fst

/-- `List::new` of `fifth.rs`: empty head, null tail pointer. -/
def newQ : QState T := ⟨[], none, none, 0⟩

/-- `List::push` of `fifth.rs`: allocate the new tail box (`next: None`); if
the raw tail pointer is non-null, dereference it and set its `next` to the new
box (undefined behaviour — modelled as `none` — if the pointee is dead);
otherwise set `head`; finally point the raw tail pointer at the new box. -/
def pushQ (s : QState T) (e : T) : Option (QState T) :=
  let id := s.fresh
  let st0 : List (Nat × QNode T) := (id, ⟨e, none⟩) :: s.store
  match s.tailPtr with
  | some t =>
      match lookupQ st0 t with
      | none => none
      | some _ =>
          some ⟨updateQ st0 t (fun nd => { nd with next := some id }),
                s.head, some id, id + 1⟩
  | none => some ⟨st0, some id, some id, id + 1⟩

/-- `List::pop` of `fifth.rs`: take the head box, advance `head` to its
`next`, and when the queue became empty reset the raw tail pointer to null.
Returns `none` only if the owned head box is somehow dead (impossible from
reachable states). -/
def popQ (s : QState T) : Option (Option T × QState T) :=
  match s.head with
  | none => some (none, s)
  | some h =>
      match lookupQ s.store h with
      | none => none
      | some nd =>
          some (some nd.elem,
                ⟨removeQ s.store h, nd.next,
                 if nd.next = none then none else s.tailPtr, s.fresh⟩)

/-- A call to one of the two public queue operations. -/
inductive QOp (T : Type) where
  | push (e : T)
  | pop

/-- Run a sequence of queue operations, collecting each `pop` result;
`none` signals undefined behaviour (a dangling-pointer dereference). -/
def runQ : List (QOp T) → QState T → Option (List (Option T) × QState T)
  | [], s => some ([], s)
  | .push e :: ops, s =>
      match pushQ s e with
      | none => none
      | some s' => runQ ops s'
  | .pop :: ops, s =>
      match popQ s with
      | none => none
      | some (v, s') =>
          match runQ ops s' with
          | none => none
          | some (vs, s'') => some (v :: vs, s'')

/-- The functional specification: the same operation sequence run on a plain
functional FIFO queue; returns the final queue and the pop results. -/
def specRun : List (QOp T) → List T → List T × List (Option T)
  | [], q => (q, [])
  | .push e :: ops, q => specRun ops (q ++ [e])
  | .pop :: ops, q =>
      match q with
      | [] =>
          let r := specRun ops []
          (r.1, none :: r.2)
      | x :: q' =>
          let r := specRun ops q'
          (r.1, some x :: r.2)

/-- The ids of an abstract queue description. -/
def qidsOf (l : List (Nat × T)) : List Nat := l.map Prod.fst

/-- `qchain store link l` : from `link`, the store contains the singly-linked
chain described by `l` front to back, ending in `None`. -/
def qchain (store : List (Nat × QNode T)) : Option Nat → List (Nat × T) → Prop
  | link, [] => link = none
  | link, (i, e) :: rest =>
      link = some i ∧
      (match lookupQ store i with
       | none => False
       | some nd => nd.elem = e ∧ qchain store nd.next rest)

/-- `modelsQ s l` : the queue state is exactly the chain described by `l`,
the raw tail pointer is null iff the queue is empty and otherwise points at
the last node, and the store holds precisely the chain's allocations. -/
def modelsQ (s : QState T) (l : List (Nat × T)) : Prop :=
  qchain s.store s.head l ∧
  s.tailPtr = lastLink none l ∧
  (keysQ s.store).Perm (qidsOf l) ∧
  (qidsOf l).Nodup ∧
  ∀ i ∈ qidsOf l, i < s.fresh

end Fifth

/-! ## Store lemmas for the `fourth.rs` embedding -/

namespace Fourth

variable {T : Type}

theorem lookupN_nil (i : Nat) : lookupN ([] : List (Nat × FNode T)) i = none := rfl

theorem lookupN_cons (j : Nat) (nd : FNode T) (st : List (Nat × FNode T)) (i : Nat) :
    lookupN ((j, nd) :: st) i = if i = j then some nd else lookupN st i := rfl

theorem lookupN_updateN (st : List (Nat × FNode T)) (j : Nat) (f : FNode T → FNode T)
    (i : Nat) :
    lookupN (updateN st j f) i = if i = j then (lookupN st i).map f else lookupN st i := by
  induction st with
  | nil => simp [updateN, lookupN]
  | cons p rest ih =>
      obtain ⟨k, nd⟩ := p
      by_cases hkj : k = j
      · subst hkj
        by_cases hik : i = k
        · subst hik
          simp [updateN, lookupN]
        · simp [updateN, lookupN, hik] at ih ⊢
          exact ih
      · by_cases hik : i = k
        · subst hik
          simp [updateN, lookupN, hkj, Ne.symm hkj]
        · simp [updateN, lookupN, hkj, hik] at ih ⊢
          exact ih

theorem lookupN_removeN (st : List (Nat × FNode T)) (j : Nat) (i : Nat) :
    lookupN (removeN st j) i = if i = j then none else lookupN st i := by
  induction st with
  | nil => simp [removeN, lookupN]
  | cons p rest ih =>
      obtain ⟨k, nd⟩ := p
      by_cases hkj : k = j
      · subst hkj
        by_cases hik : i = k
        · subst hik
          simp [removeN, lookupN] at ih ⊢
          exact ih
        · simp [removeN, lookupN, hik] at ih ⊢
          exact ih
      · by_cases hik : i = k
        · subst hik
          simp [removeN, lookupN, hkj, Ne.symm hkj]
        · simp [removeN, lookupN, hkj, hik] at ih ⊢
          exact ih

theorem keysN_cons (j : Nat) (nd : FNode T) (st : List (Nat × FNode T)) :
    keysN ((j, nd) :: st) = j :: keysN st := rfl

theorem keysN_updateN (st : List (Nat × FNode T)) (j : Nat) (f : FNode T → FNode T) :
    keysN (updateN st j f) = keysN st := by
  simp [keysN, updateN]

theorem keysN_removeN (st : List (Nat × FNode T)) (j : Nat) :
    keysN (removeN st j) = (keysN st).filter (fun a => a ≠ j) := by
  induction st with
  | nil => rfl
  | cons p rest ih =>
      obtain ⟨k, nd⟩ := p
      by_cases hkj : k = j <;>
        simp [removeN, keysN, List.filter, hkj] at ih ⊢ <;> exact ih

theorem keysN_incRc (st : List (Nat × FNode T)) (j : Nat) :
    keysN (incRc st j) = keysN st := keysN_updateN st j _

theorem keysN_decRc (st : List (Nat × FNode T)) (j : Nat) :
    keysN (decRc st j) = keysN st := keysN_updateN st j _

theorem keysN_dropLink (st : List (Nat × FNode T)) (p : Option Nat) :
    keysN (dropLink st p) = keysN st := by
  cases p with
  | none => rfl
  | some i => exact keysN_decRc st i

theorem lookupN_incRc (st : List (Nat × FNode T)) (j : Nat) (i : Nat) :
    lookupN (incRc st j) i =
      if i = j then (lookupN st i).map (fun nd => { nd with rc := nd.rc + 1 })
      else lookupN st i := lookupN_updateN st j _ i

theorem lookupN_decRc (st : List (Nat × FNode T)) (j : Nat) (i : Nat) :
    lookupN (decRc st j) i =
      if i = j then (lookupN st i).map (fun nd => { nd with rc := nd.rc - 1 })
      else lookupN st i := lookupN_updateN st j _ i

theorem lookupN_dropLink_other (st : List (Nat × FNode T)) (p : Option Nat) (i : Nat)
    (h : p ≠ some i) : lookupN (dropLink st p) i = lookupN st i := by
  cases p with
  | none => rfl
  | some j =>
      have hij : i ≠ j := by
        intro he
        exact h (by rw [he])
      simp [dropLink, lookupN_decRc, hij]

theorem lookupN_mem {st : List (Nat × FNode T)} {i : Nat} {nd : FNode T}
    (h : lookupN st i = some nd) : i ∈ keysN st := by
  induction st with
  | nil => simp [lookupN] at h
  | cons p rest ih =>
      obtain ⟨k, nd'⟩ := p
      by_cases hik : i = k
      · subst hik
        simp [keysN]
      · simp [lookupN, hik] at h
        simp [keysN]
        right
        have := ih h
        simpa [keysN] using this

theorem keysN_length (st : List (Nat × FNode T)) : (keysN st).length = st.length :=
  List.length_map st Prod.fst

theorem keysN_eq_nil {st : List (Nat × FNode T)} (h : keysN st = []) : st = [] := by
  cases st with
  | nil => rfl
  | cons p rest => simp [keysN] at h

theorem mirrorNode_mirrorNode (nd : FNode T) : mirrorNode (mirrorNode nd) = nd := by
  cases nd
  rfl

theorem mirrorStore_mirrorStore (st : List (Nat × FNode T)) :
    mirrorStore (mirrorStore st) = st := by
  induction st with
  | nil => rfl
  | cons p rest ih =>
      obtain ⟨k, nd⟩ := p
      simp [mirrorStore, mirrorNode_mirrorNode] at ih ⊢
      simpa [mirrorStore] using ih

theorem mirrorState_mirrorState (s : FState T) : mirrorState (mirrorState s) = s := by
  cases s
  simp [mirrorState, mirrorStore_mirrorStore]

theorem lookupN_mirrorStore (st : List (Nat × FNode T)) (i : Nat) :
    lookupN (mirrorStore st) i = (lookupN st i).map mirrorNode := by
  induction st with
  | nil => rfl
  | cons p rest ih =>
      obtain ⟨k, nd⟩ := p
      by_cases hik : i = k
      · simp [mirrorStore, lookupN, hik]
      · simpa [mirrorStore, lookupN, hik] using ih

theorem keysN_mirrorStore (st : List (Nat × FNode T)) :
    keysN (mirrorStore st) = keysN st := by
  simp [keysN, mirrorStore]

theorem idsOf_reverse (l : List (Nat × T)) : idsOf l.reverse = (idsOf l).reverse := by
  simp [idsOf]

theorem idsOf_nil : idsOf ([] : List (Nat × T)) = [] := rfl

theorem idsOf_cons (p : Nat × T) (l : List (Nat × T)) :
    idsOf (p :: l) = p.1 :: idsOf l := rfl

theorem lastLink_snoc (pv : Option Nat) (m : List (Nat × T)) (i : Nat) (e : T) :
    lastLink pv (m ++ [(i, e)]) = some i := by
  induction m generalizing pv with
  | nil => rfl
  | cons p rest ih =>
      obtain ⟨k, f⟩ := p
      simpa [lastLink] using ih (some k)

/-- Destructuring view of `chainSeg` on a non-empty description. -/
theorem chainSeg_cons_iff (store : List (Nat × FNode T)) (stop pv link : Option Nat)
    (i : Nat) (e : T) (rest : List (Nat × T)) :
    chainSeg store stop pv link ((i, e) :: rest) ↔
      link = some i ∧
      ∃ nd, lookupN store i = some nd ∧ nd.elem = e ∧ nd.prev = pv ∧ nd.rc = 2 ∧
        chainSeg store stop (some i) nd.next rest := by
  constructor
  · rintro ⟨h1, h2⟩
    refine ⟨h1, ?_⟩
    cases hl : lookupN store i with
    | none => rw [hl] at h2; exact absurd h2 (by simp)
    | some nd =>
        rw [hl] at h2
        exact ⟨nd, rfl, h2⟩
  · rintro ⟨h1, nd, hl, h2⟩
    exact ⟨h1, by rw [hl]; exact h2⟩

/-- `chainSeg` only inspects the store at the ids of its description. -/
theorem chainSeg_congr {store store' : List (Nat × FNode T)} {stop : Option Nat} :
    ∀ {l : List (Nat × T)} {pv link : Option Nat},
      chainSeg store stop pv link l →
      (∀ i ∈ idsOf l, lookupN store' i = lookupN store i) →
      chainSeg store' stop pv link l := by
  intro l
  induction l with
  | nil =>
      intro pv link h _
      exact h
  | cons p rest ih =>
      obtain ⟨i, e⟩ := p
      intro pv link h hsame
      rw [chainSeg_cons_iff] at h ⊢
      obtain ⟨h1, nd, hl, h2, h3, h4, h5⟩ := h
      refine ⟨h1, nd, ?_, h2, h3, h4, ?_⟩
      · rw [hsame i (by simp [idsOf]), hl]
      · exact ih h5 (fun j hj => hsame j (by simp [idsOf] at hj ⊢; right; exact hj))

/-- Every id of a chain description is allocated, with count 2. -/
theorem chainSeg_lookup {store : List (Nat × FNode T)} {stop : Option Nat} :
    ∀ {l : List (Nat × T)} {pv link : Option Nat},
      chainSeg store stop pv link l →
      ∀ i ∈ idsOf l, ∃ nd, lookupN store i = some nd ∧ nd.rc = 2 := by
  intro l
  induction l with
  | nil =>
      intro pv link _ i hi
      simp [idsOf] at hi
  | cons p rest ih =>
      obtain ⟨j, e⟩ := p
      intro pv link h i hi
      rw [chainSeg_cons_iff] at h
      obtain ⟨h1, nd, hl, h2, h3, h4, h5⟩ := h
      simp [idsOf] at hi
      rcases hi with hi | hi
      · subst hi
        exact ⟨nd, hl, h4⟩
      · exact ih h5 i (by simpa [idsOf] using hi)

/-- Extend a chain segment by one node at its far end. -/
theorem chainSeg_snoc {store : List (Nat × FNode T)} :
    ∀ {m : List (Nat × T)} {pv link : Option Nat} {i : Nat} {nd : FNode T} {e : T},
      chainSeg store (some i) pv link m →
      lookupN store i = some nd → nd.elem = e → nd.prev = lastLink pv m → nd.rc = 2 →
      chainSeg store nd.next pv link (m ++ [(i, e)]) := by
  intro m
  induction m with
  | nil =>
      intro pv link i nd e hch hl he hp hrc
      rw [List.nil_append, chainSeg_cons_iff]
      exact ⟨hch, nd, hl, he, hp, hrc, rfl⟩
  | cons p rest ih =>
      obtain ⟨j, f⟩ := p
      intro pv link i nd e hch hl he hp hrc
      rw [chainSeg_cons_iff] at hch
      obtain ⟨h1, ndj, hlj, h2, h3, h4, h5⟩ := hch
      rw [List.cons_append, chainSeg_cons_iff]
      exact ⟨h1, ndj, hlj, h2, h3, h4, ih h5 hl he (by simpa [lastLink] using hp) hrc⟩

/-- The link entering a chain's far end, read off the segment itself. -/
theorem chainSeg_lastLink {store : List (Nat × FNode T)} :
    ∀ {l : List (Nat × T)} {stop pv link : Option Nat},
      chainSeg store stop pv link l → lastLink stop l.reverse = link := by
  intro l
  induction l with
  | nil =>
      intro stop pv link h
      simpa [lastLink] using h.symm
  | cons p rest ih =>
      obtain ⟨i, e⟩ := p
      intro stop pv link h
      rw [chainSeg_cons_iff] at h
      obtain ⟨h1, nd, hl, h2, h3, h4, h5⟩ := h
      rw [List.reverse_cons, lastLink_snoc, h1]

/-- Reversal: a chain segment read backward is a chain segment of the mirrored
store, with the roles of `prev`/`next` and of the two boundary links swapped. -/
theorem chainSeg_rev {store : List (Nat × FNode T)} :
    ∀ {l : List (Nat × T)} {stop pv link : Option Nat},
      chainSeg store stop pv link l →
      chainSeg (mirrorStore store) pv stop (lastLink pv l) l.reverse := by
  intro l
  induction l with
  | nil =>
      intro stop pv link _
      rfl
  | cons p rest ih =>
      obtain ⟨i, e⟩ := p
      intro stop pv link h
      rw [chainSeg_cons_iff] at h
      obtain ⟨h1, nd, hl, h2, h3, h4, h5⟩ := h
      have hrev := ih h5
      have hsnoc := chainSeg_snoc hrev
        (by rw [lookupN_mirrorStore, hl]; rfl)
        (show (mirrorNode nd).elem = e from h2)
        (by
          show (mirrorNode nd).prev = lastLink stop rest.reverse
          show nd.next = lastLink stop rest.reverse
          exact (chainSeg_lastLink h5).symm)
        (show (mirrorNode nd).rc = 2 from h4)
      have hnx : (mirrorNode nd).next = pv := h3
      rw [hnx] at hsnoc
      simpa [lastLink] using hsnoc

/-- A state models a description exactly when its mirror models the reversed
description. -/
theorem models_mirror {s : FState T} {l : List (Nat × T)} (h : models s l) :
    models (mirrorState s) l.reverse := by
  obtain ⟨hch, htl, hperm, hnd, hbd⟩ := h
  refine ⟨?_, ?_, ?_, ?_, ?_⟩
  · show chainSeg (mirrorStore s.store) none none s.tail l.reverse
    rw [htl]
    exact chainSeg_rev hch
  · show s.head = lastLink none l.reverse
    exact (chainSeg_lastLink hch).symm
  · show (keysN (mirrorStore s.store)).Perm (idsOf l.reverse)
    rw [keysN_mirrorStore, idsOf_reverse]
    exact hperm.trans (List.reverse_perm _).symm
  · rw [idsOf_reverse]
    exact (List.nodup_reverse).mpr hnd
  · intro i hi
    rw [idsOf_reverse, List.mem_reverse] at hi
    exact hbd i hi

theorem removeN_updateN_comm (st : List (Nat × FNode T)) (i j : Nat)
    (f : FNode T → FNode T) :
    removeN (updateN st i f) j = updateN (removeN st j) i f := by
  induction st with
  | nil => rfl
  | cons p rest ih =>
      obtain ⟨k, nd⟩ := p
      by_cases hkj : k = j <;> simp [removeN, updateN, List.filter, hkj] at ih ⊢ <;>
        simpa [removeN, updateN] using ih

theorem removeN_updateN_self (st : List (Nat × FNode T)) (i : Nat)
    (f : FNode T → FNode T) :
    removeN (updateN st i f) i = removeN st i := by
  induction st with
  | nil => rfl
  | cons p rest ih =>
      obtain ⟨k, nd⟩ := p
      by_cases hki : k = i <;> simp [removeN, updateN, List.filter, hki] at ih ⊢ <;>
        simpa [removeN, updateN] using ih

/-- Reduction of `push_front` on an empty list. -/
theorem pushFront_eq_none {s : FState T} {e : T} (h : s.head = none) :
    pushFront s e =
      ⟨dropLink (incRc ((s.fresh, ⟨e, none, none, 1⟩) :: s.store) s.fresh) s.tail,
       some s.fresh, some s.fresh, s.fresh + 1⟩ := by
  simp [pushFront, h]

/-- Reduction of `push_front` on a non-empty list whose head node has an empty
`prev` link (as every reachable head does). -/
theorem pushFront_eq_some {s : FState T} {e : T} {oldH : Nat} {nd0 : FNode T}
    (h : s.head = some oldH) (hne : oldH ≠ s.fresh)
    (hl : lookupN s.store oldH = some nd0) (hp : nd0.prev = none) :
    pushFront s e =
      ⟨updateN (updateN (incRc ((s.fresh, ⟨e, none, none, 1⟩) :: s.store) s.fresh)
          oldH (fun n => { n with prev := some s.fresh }))
        s.fresh (fun n => { n with next := some oldH }),
       some s.fresh, s.tail, s.fresh + 1⟩ := by
  have h1 : lookupN (incRc ((s.fresh, ⟨e, none, none, 1⟩) :: s.store) s.fresh) oldH
      = some nd0 := by
    rw [lookupN_incRc]
    simp [hne, lookupN_cons, hl]
  have h2 : lookupN (updateN (incRc ((s.fresh, ⟨e, none, none, 1⟩) :: s.store) s.fresh)
      oldH (fun n => { n with prev := some s.fresh })) s.fresh
      = some ⟨e, none, none, 2⟩ := by
    rw [lookupN_updateN]
    simp [Ne.symm hne, lookupN_incRc, lookupN_cons]
  simp [pushFront, h, h1, h2, hp, dropLink]

/-- `push_front` prepends the freshly allocated node to the modelled list. -/
theorem pushFront_models {s : FState T} {l : List (Nat × T)} {e : T} (h : models s l) :
    models (pushFront s e) ((s.fresh, e) :: l) := by
  obtain ⟨hch, htl, hperm, hnd, hbd⟩ := h
  cases l with
  | nil =>
      have hh : s.head = none := hch
      have hst : s.store = [] := keysN_eq_nil hperm.eq_nil
      have htl' : s.tail = none := htl
      rw [pushFront_eq_none hh]
      refine ⟨?_, rfl, ?_, by simp [idsOf], ?_⟩
      · rw [chainSeg_cons_iff]
        refine ⟨rfl, ⟨e, none, none, 2⟩, ?_, rfl, rfl, rfl, rfl⟩
        rw [htl']
        simp [dropLink, incRc, lookupN_updateN, hst, lookupN_cons]
      · rw [htl']
        show (keysN (incRc ((s.fresh, ⟨e, none, none, 1⟩) :: s.store) s.fresh)).Perm _
        rw [keysN_incRc]
        simp [hst, keysN, idsOf]
      · intro i hi
        simp [idsOf] at hi
        subst hi
        exact Nat.lt_succ_self _
  | cons p rest =>
      obtain ⟨oldH, e0⟩ := p
      rw [chainSeg_cons_iff] at hch
      obtain ⟨hh, nd0, hl, hev, hpv, hrc, hrest⟩ := hch
      have hoH : oldH < s.fresh := hbd oldH (by simp [idsOf])
      have hne : oldH ≠ s.fresh := Nat.ne_of_lt hoH
      rw [pushFront_eq_some hh hne hl hpv]
      have hA : lookupN (updateN (updateN
            (incRc ((s.fresh, ⟨e, none, none, 1⟩) :: s.store) s.fresh)
            oldH (fun n => { n with prev := some s.fresh }))
          s.fresh (fun n => { n with next := some oldH })) s.fresh
          = some ⟨e, some oldH, none, 2⟩ := by
        rw [lookupN_updateN, lookupN_updateN]
        simp [Ne.symm hne, lookupN_incRc, lookupN_cons]
      have hB : lookupN (updateN (updateN
            (incRc ((s.fresh, ⟨e, none, none, 1⟩) :: s.store) s.fresh)
            oldH (fun n => { n with prev := some s.fresh }))
          s.fresh (fun n => { n with next := some oldH })) oldH
          = some { nd0 with prev := some s.fresh } := by
        rw [lookupN_updateN, lookupN_updateN]
        simp [hne, lookupN_incRc, lookupN_cons, hl]
      have hC : ∀ i, i ≠ s.fresh → i ≠ oldH →
          lookupN (updateN (updateN
              (incRc ((s.fresh, ⟨e, none, none, 1⟩) :: s.store) s.fresh)
              oldH (fun n => { n with prev := some s.fresh }))
            s.fresh (fun n => { n with next := some oldH })) i
            = lookupN s.store i := by
        intro i hif hio
        rw [lookupN_updateN, lookupN_updateN, lookupN_incRc, lookupN_cons]
        simp [hif, hio]
      have hkeys : keysN (updateN (updateN
            (incRc ((s.fresh, ⟨e, none, none, 1⟩) :: s.store) s.fresh)
            oldH (fun n => { n with prev := some s.fresh }))
          s.fresh (fun n => { n with next := some oldH }))
          = s.fresh :: keysN s.store := by
        rw [keysN_updateN, keysN_updateN, keysN_incRc, keysN_cons]
      have hfreshNotMem : s.fresh ∉ idsOf ((oldH, e0) :: rest) := by
        intro hmem
        exact absurd (hbd _ hmem) (Nat.lt_irrefl _)
      refine ⟨?_, ?_, ?_, ?_, ?_⟩
      · rw [chainSeg_cons_iff]
        refine ⟨rfl, ⟨e, some oldH, none, 2⟩, hA, rfl, rfl, rfl, ?_⟩
        rw [chainSeg_cons_iff]
        refine ⟨rfl, { nd0 with prev := some s.fresh }, hB, hev, rfl, hrc, ?_⟩
        show chainSeg _ none (some oldH) nd0.next rest
        refine chainSeg_congr hrest ?_
        intro i hi
        have hifr : i ≠ s.fresh := by
          intro he
          exact hfreshNotMem (by simp [idsOf]; right; simpa [he, idsOf] using hi)
        have hcons : (oldH :: idsOf rest).Nodup := by simpa [idsOf] using hnd
        have hio : i ≠ oldH := by
          intro he
          rw [he] at hi
          exact (List.nodup_cons.mp hcons).1 hi
        exact hC i hifr hio
      · simpa [lastLink] using htl
      · rw [hkeys]
        exact hperm.cons s.fresh
      · exact List.nodup_cons.mpr ⟨hfreshNotMem, hnd⟩
      · intro i hi
        simp [idsOf] at hi
        rcases hi with hi | hi | hi
        · subst hi
          exact Nat.lt_succ_self _
        · subst hi
          exact Nat.lt_succ_of_lt hoH
        · exact Nat.lt_succ_of_lt (hbd i (by simp [idsOf]; right; exact hi))

/-- Reduction of `pop_front` on an empty list. -/
theorem popFront_eq_none {s : FState T} (h : s.head = none) :
    popFront s = .ok (none, s) := by
  simp [popFront, h]

/-- Reduction of `pop_front` on a single-node list. -/
theorem popFront_eq_single {s : FState T} {oldH : Nat} {nd0 : FNode T}
    (hh : s.head = some oldH) (hl : lookupN s.store oldH = some nd0)
    (hnx : nd0.next = none) (htl : s.tail = some oldH)
    (hrc : nd0.rc = 2) (hpv : nd0.prev = none) :
    popFront s = .ok (some nd0.elem, ⟨removeN s.store oldH, none, none, s.fresh⟩) := by
  have h1 : lookupN (decRc (updateN s.store oldH (fun n => { n with next := none })) oldH)
      oldH = some { nd0 with next := none, rc := nd0.rc - 1 } := by
    rw [lookupN_decRc, lookupN_updateN]
    simp [hl]
  have hstore : removeN (decRc (updateN s.store oldH (fun n => { n with next := none }))
      oldH) oldH = removeN s.store oldH := by
    rw [decRc, removeN_updateN_self, removeN_updateN_self]
  simp [popFront, hh, hl, hnx, htl, dropLink, finishPop, h1, hrc, hpv, hstore]

/-- Reduction of `pop_front` on a list of two or more nodes. -/
theorem popFront_eq_cons {s : FState T} {oldH newH : Nat} {nd0 ndj : FNode T}
    (hh : s.head = some oldH) (hl : lookupN s.store oldH = some nd0)
    (hnx : nd0.next = some newH) (hne : newH ≠ oldH)
    (hlj : lookupN s.store newH = some ndj) (hpj : ndj.prev = some oldH)
    (hrc : nd0.rc = 2) (hpv : nd0.prev = none) :
    popFront s = .ok (some nd0.elem,
      ⟨updateN (removeN s.store oldH) newH (fun n => { n with prev := none }),
       some newH, s.tail, s.fresh⟩) := by
  have hlj1 : lookupN (updateN s.store oldH (fun n => { n with next := none })) newH
      = some ndj := by
    rw [lookupN_updateN]
    simp [hne, hlj]
  have h1 : lookupN (decRc (updateN (updateN s.store oldH (fun n => { n with next := none }))
        newH (fun n => { n with prev := none })) oldH) oldH
      = some { nd0 with next := none, rc := nd0.rc - 1 } := by
    rw [lookupN_decRc, lookupN_updateN, lookupN_updateN]
    simp [Ne.symm hne, hl]
  have hstore : removeN (decRc (updateN (updateN s.store oldH
        (fun n => { n with next := none })) newH (fun n => { n with prev := none }))
      oldH) oldH
      = updateN (removeN s.store oldH) newH (fun n => { n with prev := none }) := by
    rw [decRc, removeN_updateN_self, removeN_updateN_comm, removeN_updateN_self]
  simp [popFront, hh, hl, hnx, hne, hlj1, hpj, dropLink, finishPop, h1, hrc, hpv, hstore]

/-- The store of a modelled state holds exactly one allocation per element. -/
theorem models_store_length {s : FState T} {l : List (Nat × T)} (h : models s l) :
    s.store.length = l.length := by
  have := h.2.2.1.length_eq
  rw [keysN_length] at this
  simpa [idsOf] using this

/-- `pop_front` on a modelled empty list returns `None` and leaves the state
untouched. -/
theorem popFront_models_nil {s : FState T} (h : models s []) :
    popFront s = .ok (none, s) :=
  popFront_eq_none h.1

/-- `pop_front` on a modelled non-empty list succeeds, returns the front
element, and the result models the remaining description. -/
theorem popFront_models_cons {s : FState T} {i : Nat} {e : T} {l : List (Nat × T)}
    (h : models s ((i, e) :: l)) :
    ∃ s', popFront s = .ok (some e, s') ∧ models s' l ∧ s'.fresh = s.fresh := by
  obtain ⟨hch, htl, hperm, hnd, hbd⟩ := h
  rw [chainSeg_cons_iff] at hch
  obtain ⟨hh, nd0, hl, hev, hpv, hrc, hrest⟩ := hch
  have hiNotMem : i ∉ idsOf l := by
    have hcons : (i :: idsOf l).Nodup := by simpa [idsOf] using hnd
    exact (List.nodup_cons.mp hcons).1
  have hndl : (idsOf l).Nodup := by
    have hcons : (i :: idsOf l).Nodup := by simpa [idsOf] using hnd
    exact (List.nodup_cons.mp hcons).2
  cases l with
  | nil =>
      have hnx : nd0.next = none := hrest
      have htl' : s.tail = some i := by simpa [lastLink] using htl
      have hkeys : keysN s.store = [i] := List.perm_singleton.mp hperm
      refine ⟨⟨removeN s.store i, none, none, s.fresh⟩, ?_, ?_, rfl⟩
      · rw [popFront_eq_single hh hl hnx htl' hrc hpv, hev]
      · refine ⟨rfl, rfl, ?_, by simp [idsOf], by simp [idsOf]⟩
        show (keysN (removeN s.store i)).Perm (idsOf [])
        rw [keysN_removeN, hkeys]
        simp [idsOf]
  | cons q rest2 =>
      obtain ⟨j, f0⟩ := q
      rw [chainSeg_cons_iff] at hrest
      obtain ⟨hnx, ndj, hlj, hevj, hpj, hrcj, hrest2⟩ := hrest
      have hiNotRest : i ∉ idsOf rest2 := by
        intro hmem
        exact hiNotMem (List.mem_cons_of_mem _ hmem)
      have hne : j ≠ i := by
        intro he
        apply hiNotMem
        rw [idsOf_cons, he]
        exact List.mem_cons_self _ _
      refine ⟨⟨updateN (removeN s.store i) j (fun n => { n with prev := none }),
              some j, s.tail, s.fresh⟩, ?_, ?_, rfl⟩
      · rw [popFront_eq_cons hh hl hnx hne hlj hpj hrc hpv, hev]
      · have hjNotRest : j ∉ idsOf rest2 := by
          have hcons : (j :: idsOf rest2).Nodup := hndl
          exact (List.nodup_cons.mp hcons).1
        refine ⟨?_, ?_, ?_, hndl, ?_⟩
        · dsimp only
          rw [chainSeg_cons_iff]
          refine ⟨rfl, { ndj with prev := none }, ?_, hevj, rfl, hrcj, ?_⟩
          · rw [lookupN_updateN, lookupN_removeN]
            simp [hne, hlj]
          · refine chainSeg_congr hrest2 ?_
            intro k hk
            have hki : k ≠ i := by
              intro he
              rw [he] at hk
              exact hiNotRest hk
            have hkj : k ≠ j := by
              intro he
              rw [he] at hk
              exact hjNotRest hk
            rw [lookupN_updateN, lookupN_removeN]
            simp [hki, hkj]
        · simpa [lastLink] using htl
        · dsimp only
          rw [keysN_updateN, keysN_removeN]
          have hp := hperm.filter (fun a => a ≠ i)
          have hfi : (idsOf ((i, e) :: (j, f0) :: rest2)).filter (fun a => a ≠ i)
              = idsOf ((j, f0) :: rest2) := by
            rw [idsOf_cons, List.filter_cons_of_neg (by simp)]
            refine List.filter_eq_self.mpr ?_
            intro a ha
            simp only [decide_eq_true_eq]
            intro he
            rw [he] at ha
            exact hiNotMem ha
          rw [hfi] at hp
          exact hp
        · intro k hk
          exact hbd k (List.mem_cons_of_mem _ hk)

/-- The freshly created list models the empty description. -/
theorem models_nil : models (newList : FState T) [] :=
  ⟨rfl, rfl, List.Perm.refl _, List.nodup_nil, by intro i hi; simp [idsOf] at hi⟩

/-- `push_back` appends the freshly allocated node to the modelled list. -/
theorem pushBack_models {s : FState T} {l : List (Nat × T)} {e : T} (h : models s l) :
    models (pushBack s e) (l ++ [(s.fresh, e)]) := by
  have h1 := pushFront_models (e := e) (models_mirror h)
  have h2 := models_mirror h1
  simpa [pushBack, mirrorState] using h2

/-- `pop_back` on a modelled empty list returns `None` and leaves the state
untouched. -/
theorem popBack_models_nil {s : FState T} (h : models s []) :
    popBack s = .ok (none, s) := by
  have h1 := popFront_models_nil (models_mirror h)
  simp [popBack, h1, mirrorState_mirrorState]

/-- `pop_back` on a modelled non-empty list succeeds, returns the back
element, and the result models the remaining description. -/
theorem popBack_models_snoc {s : FState T} {l : List (Nat × T)} {i : Nat} {e : T}
    (h : models s (l ++ [(i, e)])) :
    ∃ s', popBack s = .ok (some e, s') ∧ models s' l ∧ s'.fresh = s.fresh := by
  have hm := models_mirror h
  have hm' : models (mirrorState s) ((i, e) :: l.reverse) := by
    simpa using hm
  obtain ⟨s', heq, hms, hf⟩ := popFront_models_cons hm'
  refine ⟨mirrorState s', ?_, ?_, ?_⟩
  · simp [popBack, heq]
  · simpa using models_mirror hms
  · simpa [mirrorState] using hf

/-- The head of a modelled non-empty list has an empty `prev` link. -/
theorem models_head_prev {s : FState T} {l : List (Nat × T)} (h : models s l) :
    ∀ hd, s.head = some hd → ∃ nd, lookupN s.store hd = some nd ∧ nd.prev = none := by
  intro hd hhd
  cases l with
  | nil =>
      have : s.head = none := h.1
      rw [this] at hhd
      exact absurd hhd (by simp)
  | cons p rest =>
      obtain ⟨i, e⟩ := p
      have hch := h.1
      rw [chainSeg_cons_iff] at hch
      obtain ⟨h1, nd, hl, _, hpv, _, _⟩ := hch
      rw [h1] at hhd
      cases hhd
      exact ⟨nd, hl, hpv⟩

theorem lastLink_some (l : List (Nat × T)) (i : Nat) : ∃ k, lastLink (some i) l = some k := by
  induction l generalizing i with
  | nil => exact ⟨i, rfl⟩
  | cons p rest ih =>
      obtain ⟨j, e⟩ := p
      simpa [lastLink] using ih j

/-- In a modelled state the head link is empty exactly when the tail link is. -/
theorem models_head_tail_none {s : FState T} {l : List (Nat × T)} (h : models s l) :
    s.head = none ↔ s.tail = none := by
  cases l with
  | nil =>
      have h1 : s.head = none := h.1
      have h2 : s.tail = none := h.2.1
      simp [h1, h2]
  | cons p rest =>
      obtain ⟨i, e⟩ := p
      have hch := h.1
      rw [chainSeg_cons_iff] at hch
      have h1 : s.head = some i := hch.1
      have h2 : s.tail = lastLink none ((i, e) :: rest) := h.2.1
      obtain ⟨k, hk⟩ := lastLink_some rest i
      have h2' : s.tail = some k := by rw [h2]; simpa [lastLink] using hk
      simp [h1, h2']

/-- In a chain ending at `None`, a chain node's non-empty `next` link has a
`prev` referring back to the node. -/
theorem chainSeg_next_prev {store : List (Nat × FNode T)} :
    ∀ {l : List (Nat × T)} {pv link : Option Nat},
      chainSeg store none pv link l →
      ∀ i nd j, i ∈ idsOf l → lookupN store i = some nd → nd.next = some j →
        ∃ ndj, lookupN store j = some ndj ∧ ndj.prev = some i := by
  intro l
  induction l with
  | nil =>
      intro pv link _ i nd j hi
      simp [idsOf] at hi
  | cons p rest ih =>
      obtain ⟨i1, e1⟩ := p
      intro pv link hch i nd j hi hl hnx
      rw [chainSeg_cons_iff] at hch
      obtain ⟨h1, nd1, hl1, _, _, _, hrest⟩ := hch
      rw [idsOf_cons] at hi
      rcases List.mem_cons.mp hi with hi1 | hirest
      · cases hi1
        have hnd : nd = nd1 := by
          rw [hl] at hl1
          exact Option.some.inj hl1
        cases rest with
        | nil =>
            have hn : nd1.next = none := hrest
            rw [hnd, hn] at hnx
            exact absurd hnx (by simp)
        | cons q rest2 =>
            obtain ⟨j2, f2⟩ := q
            rw [chainSeg_cons_iff] at hrest
            obtain ⟨h2, ndj2, hlj2, _, hpj2, _, _⟩ := hrest
            have hj : j = j2 := by
              rw [hnd] at hnx
              rw [hnx] at h2
              exact Option.some.inj h2
            rw [hj]
            exact ⟨ndj2, hlj2, hpj2⟩
      · exact ih hrest i nd j hirest hl hnx

/-- Any allocated node's non-empty `next` link has a `prev` referring back. -/
theorem models_next_prev {s : FState T} {l : List (Nat × T)} (h : models s l) :
    ∀ i nd j, lookupN s.store i = some nd → nd.next = some j →
      ∃ ndj, lookupN s.store j = some ndj ∧ ndj.prev = some i := by
  intro i nd j hl hnx
  have hmem : i ∈ idsOf l := h.2.2.1.mem_iff.mp (lookupN_mem hl)
  exact chainSeg_next_prev h.1 i nd j hmem hl hnx

/-- The forward walk along a chain returns exactly the chain's elements. -/
theorem chainSeg_walkFwd {store : List (Nat × FNode T)} :
    ∀ {l : List (Nat × T)} {pv link : Option Nat} {fuel : Nat},
      chainSeg store none pv link l → l.length ≤ fuel →
      walkFwd store fuel link = l.map Prod.snd := by
  intro l
  induction l with
  | nil =>
      intro pv link fuel h _
      rw [h]
      cases fuel <;> rfl
  | cons p rest ih =>
      obtain ⟨i, e⟩ := p
      intro pv link fuel h hle
      rw [chainSeg_cons_iff] at h
      obtain ⟨h1, nd, hl, hev, _, _, hrest⟩ := h
      cases fuel with
      | zero => exact absurd hle (by simp)
      | succ f =>
          subst h1
          have hle' : rest.length ≤ f := Nat.le_of_succ_le_succ (by simpa using hle)
          simp [walkFwd, hl, hev, ih hrest hle']

/-- The backward walk is the forward walk of the mirrored store. -/
theorem walkBwd_eq_mirror (store : List (Nat × FNode T)) :
    ∀ (fuel : Nat) (link : Option Nat),
      walkBwd store fuel link = walkFwd (mirrorStore store) fuel link := by
  intro fuel
  induction fuel with
  | zero => intro link; rfl
  | succ f ih =>
      intro link
      cases link with
      | none => rfl
      | some i =>
          cases hl : lookupN store i with
          | none => simp [walkFwd, walkBwd, hl, lookupN_mirrorStore]
          | some nd =>
              simp [walkFwd, walkBwd, hl, lookupN_mirrorStore, mirrorNode, ih]

theorem mirrorStore_length (st : List (Nat × FNode T)) :
    (mirrorStore st).length = st.length := List.length_map st _

/-- The forward walk of a modelled state lists the modelled elements. -/
theorem models_walkFwd {s : FState T} {l : List (Nat × T)} (h : models s l) :
    walkFwd s.store s.store.length s.head = l.map Prod.snd :=
  chainSeg_walkFwd h.1 (by rw [models_store_length h])

/-- Every modelled state satisfies the doubly-linked invariant of §3. -/
theorem models_Inv {s : FState T} {l : List (Nat × T)} (h : models s l) : Inv s := by
  have hm := models_mirror h
  refine ⟨models_head_tail_none h, models_head_prev h, ?_, models_next_prev h, ?_, ?_⟩
  · intro t htl
    obtain ⟨ndm, hlm, hpm⟩ := models_head_prev hm t htl
    rw [show (mirrorState s).store = mirrorStore s.store from rfl,
      lookupN_mirrorStore] at hlm
    cases hl : lookupN s.store t with
    | none => rw [hl] at hlm; exact absurd hlm (by simp)
    | some nd =>
        rw [hl] at hlm
        refine ⟨nd, rfl, ?_⟩
        have : ndm = mirrorNode nd := by simpa using hlm.symm
        rw [this] at hpm
        exact hpm
  · intro i nd j hl hpv
    have hlm : lookupN (mirrorState s).store i = some (mirrorNode nd) := by
      show lookupN (mirrorStore s.store) i = _
      rw [lookupN_mirrorStore, hl]
      rfl
    have hnxm : (mirrorNode nd).next = some j := hpv
    obtain ⟨ndjm, hljm, hpjm⟩ := models_next_prev hm i (mirrorNode nd) j hlm hnxm
    rw [show (mirrorState s).store = mirrorStore s.store from rfl,
      lookupN_mirrorStore] at hljm
    cases hlj : lookupN s.store j with
    | none => rw [hlj] at hljm; exact absurd hljm (by simp)
    | some ndj =>
        rw [hlj] at hljm
        refine ⟨ndj, rfl, ?_⟩
        have : ndjm = mirrorNode ndj := by simpa using hljm.symm
        rw [this] at hpjm
        exact hpjm
  · have h1 := models_walkFwd h
    have h2 := models_walkFwd hm
    rw [show (mirrorState s).store = mirrorStore s.store from rfl,
      show (mirrorState s).head = s.tail from rfl, mirrorStore_length] at h2
    rw [walkBwd_eq_mirror, h2, h1]
    simp [idsOf]

/-- `peek_front` returns the first modelled element. -/
theorem peekFront_models {s : FState T} {l : List (Nat × T)} (h : models s l) :
    peekFront s = (l.map Prod.snd).head? := by
  cases l with
  | nil =>
      have hh : s.head = none := h.1
      simp [peekFront, hh]
  | cons p rest =>
      obtain ⟨i, e⟩ := p
      have hch := h.1
      rw [chainSeg_cons_iff] at hch
      obtain ⟨h1, nd, hl, hev, _, _, _⟩ := hch
      simp [peekFront, h1, hl, hev]

theorem peekBack_eq_mirror (s : FState T) : peekBack s = peekFront (mirrorState s) := by
  cases hl : s.tail with
  | none => simp [peekBack, peekFront, mirrorState, hl]
  | some t =>
      simp [peekBack, peekFront, mirrorState, hl, lookupN_mirrorStore]
      cases lookupN s.store t <;> simp [mirrorNode]

/-- `peek_back` returns the last modelled element. -/
theorem peekBack_models {s : FState T} {l : List (Nat × T)} (h : models s l) :
    peekBack s = (l.map Prod.snd).getLast? := by
  rw [peekBack_eq_mirror, peekFront_models (models_mirror h)]
  rw [show l.reverse.map Prod.snd = (l.map Prod.snd).reverse by simp]
  exact List.head?_reverse _

/-- Any front-operation sequence runs from a modelled state without any
runtime panic, ending in a modelled state. -/
theorem runFront_models : ∀ (ops : List (FrOp T)) (s : FState T) (l : List (Nat × T)),
    models s l → ∃ s' l', runFront ops s = .ok s' ∧ models s' l' := by
  intro ops
  induction ops with
  | nil =>
      intro s l h
      exact ⟨s, l, rfl, h⟩
  | cons op rest ih =>
      intro s l h
      cases op with
      | push e =>
          obtain ⟨s', l', heq, hm⟩ := ih (pushFront s e) ((s.fresh, e) :: l)
            (pushFront_models h)
          exact ⟨s', l', by simpa [runFront] using heq, hm⟩
      | pop =>
          cases l with
          | nil =>
              obtain ⟨s', l', heq2, hm⟩ := ih s [] h
              exact ⟨s', l', by simp [runFront, popFront_models_nil h, heq2], hm⟩
          | cons p rest2 =>
              obtain ⟨i, e⟩ := p
              obtain ⟨s2, heq, hm2, _⟩ := popFront_models_cons h
              obtain ⟨s', l', heq2, hm⟩ := ih s2 rest2 hm2
              exact ⟨s', l', by simp [runFront, heq, heq2], hm⟩

/-- Any mixed four-operation sequence runs from a modelled state without any
runtime panic, ending in a modelled state. -/
theorem runAll_models : ∀ (ops : List (FOp T)) (s : FState T) (l : List (Nat × T)),
    models s l → ∃ s' l', runAll ops s = .ok s' ∧ models s' l' := by
  intro ops
  induction ops with
  | nil =>
      intro s l h
      exact ⟨s, l, rfl, h⟩
  | cons op rest ih =>
      intro s l h
      cases op with
      | pushF e =>
          obtain ⟨s', l', heq, hm⟩ := ih (pushFront s e) ((s.fresh, e) :: l)
            (pushFront_models h)
          exact ⟨s', l', by simpa [runAll] using heq, hm⟩
      | pushB e =>
          obtain ⟨s', l', heq, hm⟩ := ih (pushBack s e) (l ++ [(s.fresh, e)])
            (pushBack_models h)
          exact ⟨s', l', by simpa [runAll] using heq, hm⟩
      | popF =>
          cases l with
          | nil =>
              obtain ⟨s', l', heq2, hm⟩ := ih s [] h
              exact ⟨s', l', by simp [runAll, popFront_models_nil h, heq2], hm⟩
          | cons p rest2 =>
              obtain ⟨i, e⟩ := p
              obtain ⟨s2, heq, hm2, _⟩ := popFront_models_cons h
              obtain ⟨s', l', heq2, hm⟩ := ih s2 rest2 hm2
              exact ⟨s', l', by simp [runAll, heq, heq2], hm⟩
      | popB =>
          rcases List.eq_nil_or_concat l with rfl | ⟨l0, q, rfl⟩
          · obtain ⟨s', l', heq2, hm⟩ := ih s [] h
            exact ⟨s', l', by simp [runAll, popBack_models_nil h, heq2], hm⟩
          · obtain ⟨i, e⟩ := q
            rw [List.concat_eq_append] at h
            obtain ⟨s2, heq, hm2, _⟩ := popBack_models_snoc h
            obtain ⟨s', l', heq2, hm⟩ := ih s2 l0 hm2
            exact ⟨s', l', by simp [runAll, heq, heq2], hm⟩

/-- Popping as many times as the list is long returns all elements in order
and empties the list, with no panic. -/
theorem popN_models : ∀ (l : List (Nat × T)) (s : FState T), models s l →
    ∃ s', popN l.length s = .ok (l.map (fun p => some p.2), s') ∧ models s' [] := by
  intro l
  induction l with
  | nil =>
      intro s h
      exact ⟨s, rfl, h⟩
  | cons p rest ih =>
      obtain ⟨i, e⟩ := p
      intro s h
      obtain ⟨s2, heq, hm2, _⟩ := popFront_models_cons h
      obtain ⟨s', heq2, hm⟩ := ih s2 hm2
      exact ⟨s', by simp [popN, heq, heq2], hm⟩

/-- Pushing a value list with `push_front` yields a modelled state whose
elements are the pushed values in reverse order, in front of the old ones. -/
theorem pushAllF_models : ∀ (vs : List T) (s : FState T) (l : List (Nat × T)),
    models s l →
    ∃ l', models (pushAllF s vs) l' ∧ l'.map Prod.snd = vs.reverse ++ l.map Prod.snd := by
  intro vs
  induction vs with
  | nil =>
      intro s l h
      exact ⟨l, h, by simp⟩
  | cons v rest ih =>
      intro s l h
      obtain ⟨l', hm, hmap⟩ := ih (pushFront s v) ((s.fresh, v) :: l) (pushFront_models h)
      refine ⟨l', hm, ?_⟩
      rw [hmap]
      simp

/-- The teardown loop frees exactly one node per iteration and never panics. -/
theorem teardownLoop_models : ∀ (l : List (Nat × T)) (s : FState T), models s l →
    ∀ k, k ≤ l.length →
      ∃ sk lk, teardownLoop k s = .ok sk ∧ models sk lk ∧ lk.length = l.length - k := by
  intro l
  induction l with
  | nil =>
      intro s h k hk
      have hk0 : k = 0 := Nat.le_zero.mp hk
      subst hk0
      exact ⟨s, [], rfl, h, rfl⟩
  | cons p rest ih =>
      obtain ⟨i, e⟩ := p
      intro s h k hk
      cases k with
      | zero => exact ⟨s, (i, e) :: rest, rfl, h, by simp⟩
      | succ k' =>
          obtain ⟨s2, heq, hm2, _⟩ := popFront_models_cons h
          have hh : s.head = some i := by
            have hch := h.1
            rw [chainSeg_cons_iff] at hch
            exact hch.1
          obtain ⟨sk, lk, heq2, hm, hlen⟩ := ih s2 hm2 k' (Nat.le_of_succ_le_succ hk)
          refine ⟨sk, lk, ?_, hm, by simpa using hlen⟩
          simp [teardownLoop, hh, heq, heq2]

/-- Popping the fresh empty list any number of times returns `None` every
time and leaves the list in its initial state. -/
theorem popN_newList (k : Nat) :
    popN k (newList : FState T) = .ok (List.replicate k none, newList) := by
  induction k with
  | zero => rfl
  | succ n ih =>
      have hp : popFront (newList : FState T) = .ok (none, newList) := rfl
      simp [popN, hp, ih, List.replicate_succ]

/-- C1: when a SharedMutableList of length n is discarded, the teardown walk
(spec-modelled, `src/fourth.rs` itself has no `Drop` impl) releases all n
nodes — the allocation store returns to empty and both endpoint links are
cleared — and it does so iteratively: it needs exactly one loop iteration per
node (after k iterations exactly n - k allocations remain), never recursing
into a neighbour's destructor and never panicking. -/
theorem c1_teardown_releases_all_nodes {s : FState T} {l : List (Nat × T)}
    (h : models s l) :
    (∃ s', teardown s = .ok s' ∧ s'.store = [] ∧ s'.head = none ∧ s'.tail = none) ∧
    (∀ k, k ≤ l.length → ∃ sk, teardownLoop k s = .ok sk ∧
        sk.store.length = l.length - k) := by
  have hsl : s.store.length = l.length := models_store_length h
  constructor
  · obtain ⟨sk, lk, heq, hm, hlen⟩ := teardownLoop_models l s h l.length (le_refl _)
    have hlk : lk = [] := List.length_eq_zero.mp (by omega)
    subst hlk
    have hstore : sk.store = [] := keysN_eq_nil hm.2.2.1.eq_nil
    refine ⟨sk, ?_, hstore, hm.1, hm.2.1⟩
    rw [teardown, hsl]
    exact heq
  · intro k hk
    obtain ⟨sk, lk, heq, hm, hlen⟩ := teardownLoop_models l s h k hk
    exact ⟨sk, heq, by rw [models_store_length hm, hlen]⟩

/-- Witness for C1: a concrete two-node list is torn down completely, one
node per iteration. -/
theorem c1_teardown_witness :
    (∃ s', teardown (pushFront (pushFront (newList : FState Nat) 1) 2) = .ok s' ∧
        s'.store = [] ∧ s'.head = none ∧ s'.tail = none) ∧
    (∀ k, k ≤ ([(1, 2), (0, 1)] : List (Nat × Nat)).length →
        ∃ sk, teardownLoop k (pushFront (pushFront (newList : FState Nat) 1) 2)
            = .ok sk ∧
          sk.store.length = ([(1, 2), (0, 1)] : List (Nat × Nat)).length - k) :=
  c1_teardown_releases_all_nodes (pushFront_models (pushFront_models models_nil))

/-- C2: the full both-ends surface: `push_back` appends at the tail exactly
symmetrically to `push_front` prepending at the head, `pop_back` removes and
returns the tail element (or the explicit empty signal on an empty list)
symmetrically to `pop_front`, and `peek_front`/`peek_back` return a read-only
view of the respective endpoint element without removing it (the back/peek
operations are spec-modelled; `src/fourth.rs` only implements the front
pair). -/
theorem c2_full_both_ends_surface {s : FState T} {l : List (Nat × T)} {e : T}
    (h : models s l) :
    models (pushFront s e) ((s.fresh, e) :: l) ∧
    models (pushBack s e) (l ++ [(s.fresh, e)]) ∧
    (l = [] → popBack s = .ok (none, s)) ∧
    (∀ l0 i e0, l = l0 ++ [(i, e0)] →
        ∃ s', popBack s = .ok (some e0, s') ∧ models s' l0) ∧
    peekFront s = (l.map Prod.snd).head? ∧
    peekBack s = (l.map Prod.snd).getLast? := by
  refine ⟨pushFront_models h, pushBack_models h, ?_, ?_, peekFront_models h,
    peekBack_models h⟩
  · intro hl
    subst hl
    exact popBack_models_nil h
  · intro l0 i e0 hl
    subst hl
    obtain ⟨s', heq, hm, _⟩ := popBack_models_snoc h
    exact ⟨s', heq, hm⟩

/-- Witness for C2 at a concrete one-element list. -/
theorem c2_both_ends_witness :
    models (pushFront (pushFront (newList : FState Nat) 5) 7)
      [(1, 7), (0, 5)] ∧
    models (pushBack (pushFront (newList : FState Nat) 5) 7)
      [(0, 5), (1, 7)] ∧
    (([(0, 5)] : List (Nat × Nat)) = [] →
      popBack (pushFront (newList : FState Nat) 5) = .ok (none, pushFront newList 5)) ∧
    (∀ l0 i e0, ([(0, 5)] : List (Nat × Nat)) = l0 ++ [(i, e0)] →
        ∃ s', popBack (pushFront (newList : FState Nat) 5) = .ok (some e0, s') ∧
          models s' l0) ∧
    peekFront (pushFront (newList : FState Nat) 5)
      = (([(0, 5)] : List (Nat × Nat)).map Prod.snd).head? ∧
    peekBack (pushFront (newList : FState Nat) 5)
      = (([(0, 5)] : List (Nat × Nat)).map Prod.snd).getLast? :=
  c2_full_both_ends_surface (pushFront_models models_nil)

/-- C3: for every sequence of calls to the public operations of
`src/fourth.rs` (`push_front`/`pop_front`) starting from `List::new()`, no
internal runtime check ever fails: every `RefCell::borrow_mut` succeeds (no
overlapping borrow of the same node is outstanding) and the
`Rc::try_unwrap(..).ok().unwrap()` in `pop_front` never panics — the run
never produces a `Panic` value. -/
theorem c3_no_internal_panic (ops : List (FrOp T)) :
    ∃ s', runFront ops (newList : FState T) = .ok s' := by
  obtain ⟨s', l', heq, _⟩ := runFront_models ops newList [] models_nil
  exact ⟨s', heq⟩

/-- C4: after every operation of any mixed
`push_front`/`push_back`/`pop_front`/`pop_back` sequence from `List::new()`
(every prefix of a sequence is itself such a sequence), the doubly-linked
invariant holds: head and tail are empty together, the head's `prev` and the
tail's `next` are empty, every node's non-empty `next` has a `prev` referring
back (and symmetrically), and walking forward from the head visits exactly
the reverse of walking backward from the tail. -/
theorem c4_mixed_ops_invariant (ops : List (FOp T)) :
    ∃ s', runAll ops (newList : FState T) = .ok s' ∧ Inv s' := by
  obtain ⟨s', l', heq, hm⟩ := runAll_models ops newList [] models_nil
  exact ⟨s', heq, models_Inv hm⟩

/-- C5: N `push_front` calls followed by N `pop_front` calls return the
pushed values in reverse push order — LIFO behaviour from the front, with no
panic. -/
theorem c5_lifo_from_front (vs : List T) :
    ∃ s', popN vs.length (pushAllF (newList : FState T) vs)
      = .ok (vs.reverse.map some, s') := by
  obtain ⟨l', hm, hmap⟩ := pushAllF_models vs newList [] models_nil
  have hlen : l'.length = vs.length := by
    have := congrArg List.length hmap
    simpa using this
  obtain ⟨s', heq, _⟩ := popN_models l' _ hm
  have hout : l'.map (fun p => some p.2) = vs.reverse.map some := by
    have h1 : l'.map (fun p => some p.2) = (l'.map Prod.snd).map some := by
      rw [List.map_map]
      rfl
    rw [h1, hmap]
    simp
  refine ⟨s', ?_⟩
  rw [← hlen, heq, hout]

/-- C6: `pop_front` on the empty list returns the explicit no-element result
(`Except.ok` carrying `none` — never a panic) and is idempotent: any number of
repeated pops keeps returning `none` and leaves the list empty and
unchanged. -/
theorem c6_pop_empty_idempotent :
    popFront (newList : FState T) = .ok (none, newList) ∧
    ∀ k, popN k (newList : FState T) = .ok (List.replicate k none, newList) :=
  ⟨rfl, popN_newList⟩

end Fourth

/-! ## Lemmas for the `silly1.rs` finger deque -/

namespace Silly

variable {T : Type}

/-- Driving `go_left` to exhaustion moves the whole left stack onto the right
stack, reversing it exactly once. -/
theorem goLeftAll_spec : ∀ (l r : List T), goLeftAll ⟨l, r⟩ = ⟨[], l.reverse ++ r⟩ := by
  intro l
  induction l with
  | nil =>
      intro r
      simp [goLeftAll]
  | cons x xs ih =>
      intro r
      simp only [goLeftAll]
      rw [ih (x :: r)]
      simp

/-- Driving `go_right` to exhaustion moves the whole right stack onto the
left stack, reversing it exactly once. -/
theorem goRightAll_spec : ∀ (r l : List T), goRightAll ⟨l, r⟩ = ⟨r.reverse ++ l, []⟩ := by
  intro r
  induction r with
  | nil =>
      intro l
      simp [goRightAll]
  | cons x xs ih =>
      intro l
      simp only [goRightAll]
      rw [ih (x :: l)]
      simp

/-- Pushing a list of values with `push_left` stacks them in reverse order on
the left. -/
theorem pushAllLeft_spec : ∀ (vs : List T) (s : DL T),
    pushAllLeft s vs = ⟨vs.reverse ++ s.left, s.right⟩ := by
  intro vs
  induction vs with
  | nil => intro s; cases s; rfl
  | cons v rest ih =>
      intro s
      show pushAllLeft (pushLeft s v) rest = _
      rw [ih (pushLeft s v)]
      simp [pushLeft]

/-- Pushing a list of values with `push_right` stacks them in reverse order on
the right. -/
theorem pushAllRight_spec : ∀ (vs : List T) (s : DL T),
    pushAllRight s vs = ⟨s.left, vs.reverse ++ s.right⟩ := by
  intro vs
  induction vs with
  | nil => intro s; cases s; rfl
  | cons v rest ih =>
      intro s
      show pushAllRight (pushRight s v) rest = _
      rw [ih (pushRight s v)]
      simp [pushRight]

/-- Popping the right stack as often as it is long returns its elements top to
bottom and leaves the left stack untouched. -/
theorem popNRight_all : ∀ (vs l : List T),
    popNRight vs.length ⟨l, vs⟩ = (vs.map some, ⟨l, []⟩) := by
  intro vs
  induction vs with
  | nil => intro l; rfl
  | cons v rest ih =>
      intro l
      simp [popNRight, popRight, ih]

/-- Popping the left stack as often as it is long returns its elements top to
bottom and leaves the right stack untouched. -/
theorem popNLeft_all : ∀ (vs r : List T),
    popNLeft vs.length ⟨vs, r⟩ = (vs.map some, ⟨[], r⟩) := by
  intro vs
  induction vs with
  | nil => intro r; rfl
  | cons v rest ih =>
      intro r
      simp [popNLeft, popLeft, ih]

/-- C7: popping an empty side returns the explicit no-element result and
leaves both stacks unchanged, even when the opposite side holds items:
popping only ever affects the side requested. -/
theorem c7_pop_empty_side {s : DL T} :
    (s.left = [] → popLeft s = (none, s)) ∧
    (s.right = [] → popRight s = (none, s)) := by
  obtain ⟨l, r⟩ := s
  constructor
  · intro h
    cases h
    rfl
  · intro h
    cases h
    rfl

/-- Witness for C7: popping the empty side of a deque whose other side is
non-empty returns `none` and changes nothing. -/
theorem c7_pop_empty_side_witness :
    popLeft (⟨[], [5]⟩ : DL Nat) = (none, ⟨[], [5]⟩) ∧
    popRight (⟨[3], []⟩ : DL Nat) = (none, ⟨[3], []⟩) :=
  ⟨(c7_pop_empty_side (s := ⟨[], [5]⟩)).1 rfl,
   (c7_pop_empty_side (s := ⟨[3], []⟩)).2 rfl⟩

/-- C8: pushing k elements onto one side of the empty deque and stepping them
all to the other side (`go_left`, resp. `go_right`, until it returns `false`)
loses no element and reverses the stack exactly once: the receiving side then
pops all k elements in their original push order, and the drained side is
empty (one more step returns `false`). -/
theorem c8_round_trip_reversal (vs : List T) :
    goLeftAll (pushAllLeft newDL vs) = ⟨[], vs⟩ ∧
    (goLeft (goLeftAll (pushAllLeft newDL vs))).1 = false ∧
    popNRight vs.length (goLeftAll (pushAllLeft newDL vs)) = (vs.map some, newDL) ∧
    goRightAll (pushAllRight newDL vs) = ⟨vs, []⟩ ∧
    (goRight (goRightAll (pushAllRight newDL vs))).1 = false ∧
    popNLeft vs.length (goRightAll (pushAllRight newDL vs)) = (vs.map some, newDL) := by
  have h1 : pushAllLeft (newDL : DL T) vs = ⟨vs.reverse, []⟩ := by
    rw [pushAllLeft_spec vs newDL]
    simp [newDL]
  have h2 : goLeftAll (⟨vs.reverse, []⟩ : DL T) = ⟨[], vs⟩ := by
    rw [goLeftAll_spec]
    simp
  have h3 : pushAllRight (newDL : DL T) vs = ⟨[], vs.reverse⟩ := by
    rw [pushAllRight_spec vs newDL]
    simp [newDL]
  have h4 : goRightAll (⟨[], vs.reverse⟩ : DL T) = ⟨vs, []⟩ := by
    rw [goRightAll_spec]
    simp
  refine ⟨?_, ?_, ?_, ?_, ?_, ?_⟩
  · rw [h1, h2]
  · rw [h1, h2]
    rfl
  · rw [h1, h2, popNRight_all vs []]
    rfl
  · rw [h3, h4]
  · rw [h3, h4]
    rfl
  · rw [h3, h4, popNLeft_all vs []]
    rfl

end Silly

/-! ## Lemmas for the `third_with_arc.rs` persistent list -/

namespace Third

/-- C9: `tail()` on the empty persistent list silently returns the empty list
rather than signalling an error: the result's `head()` is `None`, and
repeating `tail()` any number of times stays empty. -/
theorem c9_tail_of_empty_is_empty (T : Type) :
    tailP ([] : PList T) = [] ∧
    headP (tailP ([] : PList T)) = none ∧
    ∀ k, tailP^[k] ([] : PList T) = [] := by
  refine ⟨rfl, rfl, ?_⟩
  intro k
  induction k with
  | zero => rfl
  | succ n ih => rw [Function.iterate_succ_apply, show tailP ([] : PList T) = [] from rfl, ih]

end Third

/-! ## Lemmas for the `fifth.rs` tail-pointer queue -/

namespace Fifth

variable {T : Type}

theorem lookupQ_cons (j : Nat) (nd : QNode T) (st : List (Nat × QNode T)) (i : Nat) :
    lookupQ ((j, nd) :: st) i = if i = j then some nd else lookupQ st i := rfl

theorem lookupQ_updateQ (st : List (Nat × QNode T)) (j : Nat) (f : QNode T → QNode T)
    (i : Nat) :
    lookupQ (updateQ st j f) i = if i = j then (lookupQ st i).map f else lookupQ st i := by
  induction st with
  | nil => simp [updateQ, lookupQ]
  | cons p rest ih =>
      obtain ⟨k, nd⟩ := p
      by_cases hkj : k = j
      · subst hkj
        by_cases hik : i = k
        · subst hik
          simp [updateQ, lookupQ]
        · simp [updateQ, lookupQ, hik] at ih ⊢
          exact ih
      · by_cases hik : i = k
        · subst hik
          simp [updateQ, lookupQ, hkj, Ne.symm hkj]
        · simp [updateQ, lookupQ, hkj, hik] at ih ⊢
          exact ih

theorem lookupQ_removeQ (st : List (Nat × QNode T)) (j : Nat) (i : Nat) :
    lookupQ (removeQ st j) i = if i = j then none else lookupQ st i := by
  induction st with
  | nil => simp [removeQ, lookupQ]
  | cons p rest ih =>
      obtain ⟨k, nd⟩ := p
      by_cases hkj : k = j
      · subst hkj
        by_cases hik : i = k
        · subst hik
          simp [removeQ, lookupQ] at ih ⊢
          exact ih
        · simp [removeQ, lookupQ, hik] at ih ⊢
          exact ih
      · by_cases hik : i = k
        · subst hik
          simp [removeQ, lookupQ, hkj, Ne.symm hkj]
        · simp [removeQ, lookupQ, hkj, hik] at ih ⊢
          exact ih

theorem keysQ_cons (j : Nat) (nd : QNode T) (st : List (Nat × QNode T)) :
    keysQ ((j, nd) :: st) = j :: keysQ st := rfl

theorem keysQ_updateQ (st : List (Nat × QNode T)) (j : Nat) (f : QNode T → QNode T) :
    keysQ (updateQ st j f) = keysQ st := by
  simp [keysQ, updateQ]

theorem keysQ_removeQ (st : List (Nat × QNode T)) (j : Nat) :
    keysQ (removeQ st j) = (keysQ st).filter (fun a => a ≠ j) := by
  induction st with
  | nil => rfl
  | cons p rest ih =>
      obtain ⟨k, nd⟩ := p
      by_cases hkj : k = j <;>
        simp [removeQ, keysQ, List.filter, hkj] at ih ⊢ <;> exact ih

theorem keysQ_eq_nil {st : List (Nat × QNode T)} (h : keysQ st = []) : st = [] := by
  cases st with
  | nil => rfl
  | cons p rest => simp [keysQ] at h

theorem keysQ_length (st : List (Nat × QNode T)) : (keysQ st).length = st.length :=
  List.length_map st Prod.fst

theorem updateQ_cons (k : Nat) (nd : QNode T) (st : List (Nat × QNode T)) (i : Nat)
    (f : QNode T → QNode T) :
    updateQ ((k, nd) :: st) i f = (k, if k = i then f nd else nd) :: updateQ st i f := rfl

/-- Destructuring view of `qchain` on a non-empty description. -/
theorem qchain_cons_iff (store : List (Nat × QNode T)) (link : Option Nat)
    (i : Nat) (e : T) (rest : List (Nat × T)) :
    qchain store link ((i, e) :: rest) ↔
      link = some i ∧
      ∃ nd, lookupQ store i = some nd ∧ nd.elem = e ∧ qchain store nd.next rest := by
  constructor
  · rintro ⟨h1, h2⟩
    refine ⟨h1, ?_⟩
    cases hl : lookupQ store i with
    | none => rw [hl] at h2; exact absurd h2 (by simp)
    | some nd =>
        rw [hl] at h2
        exact ⟨nd, rfl, h2⟩
  · rintro ⟨h1, nd, hl, h2⟩
    exact ⟨h1, by rw [hl]; exact h2⟩

/-- `qchain` only inspects the store at the ids of its description. -/
theorem qchain_congr {store store' : List (Nat × QNode T)} :
    ∀ {l : List (Nat × T)} {link : Option Nat},
      qchain store link l →
      (∀ i ∈ qidsOf l, lookupQ store' i = lookupQ store i) →
      qchain store' link l := by
  intro l
  induction l with
  | nil =>
      intro link h _
      exact h
  | cons p rest ih =>
      obtain ⟨i, e⟩ := p
      intro link h hsame
      rw [qchain_cons_iff] at h ⊢
      obtain ⟨h1, nd, hl, h2, h3⟩ := h
      refine ⟨h1, nd, ?_, h2, ?_⟩
      · rw [hsame i (by simp [qidsOf]), hl]
      · exact ih h3 (fun j hj => hsame j (by simp [qidsOf] at hj ⊢; right; exact hj))

theorem qidsOf_cons (p : Nat × T) (l : List (Nat × T)) :
    qidsOf (p :: l) = p.1 :: qidsOf l := rfl

theorem lookupQ_mem {st : List (Nat × QNode T)} {i : Nat} {nd : QNode T}
    (h : lookupQ st i = some nd) : i ∈ keysQ st := by
  induction st with
  | nil => simp [lookupQ] at h
  | cons p rest ih =>
      obtain ⟨k, nd'⟩ := p
      by_cases hik : i = k
      · subst hik
        simp [keysQ]
      · simp [lookupQ, hik] at h
        simp [keysQ]
        right
        have := ih h
        simpa [keysQ] using this

/-- Every id of a queue chain is allocated. -/
theorem qchain_lookup {store : List (Nat × QNode T)} :
    ∀ {l : List (Nat × T)} {link : Option Nat},
      qchain store link l → ∀ i ∈ qidsOf l, ∃ nd, lookupQ store i = some nd := by
  intro l
  induction l with
  | nil =>
      intro link _ i hi
      simp [qidsOf] at hi
  | cons p rest ih =>
      obtain ⟨j, e⟩ := p
      intro link h i hi
      rw [qchain_cons_iff] at h
      obtain ⟨h1, nd, hl, h2, h3⟩ := h
      rw [qidsOf_cons] at hi
      rcases List.mem_cons.mp hi with hi1 | hirest
      · cases hi1
        exact ⟨nd, hl⟩
      · exact ih h3 i hirest

theorem lastLink_mem : ∀ (l : List (Nat × T)) (pv : Option Nat) (t : Nat),
    lastLink pv l = some t → t ∈ qidsOf l ∨ pv = some t := by
  intro l
  induction l with
  | nil =>
      intro pv t h
      exact Or.inr h
  | cons p rest ih =>
      obtain ⟨i, e⟩ := p
      intro pv t h
      rcases ih (some i) t h with hmem | heq
      · exact Or.inl (List.mem_cons_of_mem _ hmem)
      · cases heq
        exact Or.inl (List.mem_cons_self _ _)

/-- Appending the freshly allocated node to a queue chain: rewrite the old
last node's `next` and add the new node. -/
theorem qchain_push {store : List (Nat × QNode T)} {t new : Nat} {e : T} :
    ∀ {l : List (Nat × T)} {link : Option Nat},
      qchain store link l → lastLink none l = some t → new ∉ qidsOf l →
      (qidsOf l).Nodup →
      qchain ((new, ⟨e, none⟩) ::
          updateQ store t (fun nd => { nd with next := some new }))
        link (l ++ [(new, e)]) := by
  intro l
  induction l with
  | nil =>
      intro link _ hlast _ _
      exact absurd hlast (by simp [lastLink])
  | cons p rest ih =>
      obtain ⟨i1, e1⟩ := p
      intro link h hlast hnew hnd
      rw [qchain_cons_iff] at h
      obtain ⟨h1, nd1, hl1, hev1, hrest⟩ := h
      have hnew1 : new ≠ i1 := by
        intro he
        exact hnew (by rw [qidsOf_cons, he]; exact List.mem_cons_self _ _)
      cases rest with
      | nil =>
          have ht : t = i1 := by
            have : lastLink none [(i1, e1)] = some i1 := rfl
            rw [this] at hlast
            exact (Option.some.inj hlast).symm
          subst ht
          have hnx : nd1.next = none := hrest
          rw [List.cons_append, List.nil_append, qchain_cons_iff]
          refine ⟨h1, { nd1 with next := some new }, ?_, hev1, ?_⟩
          · rw [lookupQ_cons, lookupQ_updateQ]
            simp [Ne.symm hnew1, hl1]
          · rw [qchain_cons_iff]
            refine ⟨rfl, ⟨e, none⟩, ?_, rfl, rfl⟩
            rw [lookupQ_cons]
            simp
      | cons q rest2 =>
          have hlast' : lastLink none (q :: rest2) = some t := by
            have e1eq : lastLink none ((i1, e1) :: q :: rest2)
                = lastLink none (q :: rest2) := rfl
            rw [← e1eq]
            exact hlast
          have htmem : t ∈ qidsOf (q :: rest2) := by
            rcases lastLink_mem (q :: rest2) none t hlast' with hmem | habs
            · exact hmem
            · exact absurd habs (by simp)
          have hti1 : t ≠ i1 := by
            intro he
            have hcons : (i1 :: qidsOf (q :: rest2)).Nodup := hnd
            exact (List.nodup_cons.mp hcons).1 (he ▸ htmem)
          rw [List.cons_append, qchain_cons_iff]
          refine ⟨h1, nd1, ?_, hev1, ?_⟩
          · rw [lookupQ_cons, lookupQ_updateQ]
            simp [Ne.symm hnew1, Ne.symm hti1, hl1]
          · exact ih hrest hlast'
              (fun hmem => hnew (List.mem_cons_of_mem _ hmem))
              (List.nodup_cons.mp hnd).2

/-- The fresh queue models the empty description. -/
theorem modelsQ_nil : modelsQ (newQ : QState T) [] :=
  ⟨rfl, rfl, List.Perm.refl _, List.nodup_nil, by intro i hi; simp [qidsOf] at hi⟩

/-- `push` from a modelled state never dereferences a dangling tail pointer
and appends the new allocation at the back. -/
theorem pushQ_models {s : QState T} {l : List (Nat × T)} {e : T} (h : modelsQ s l) :
    ∃ s', pushQ s e = some s' ∧ modelsQ s' (l ++ [(s.fresh, e)]) := by
  obtain ⟨hch, htl, hperm, hnd, hbd⟩ := h
  cases l with
  | nil =>
      have htl' : s.tailPtr = none := htl
      refine ⟨⟨(s.fresh, ⟨e, none⟩) :: s.store, some s.fresh, some s.fresh,
        s.fresh + 1⟩, ?_, ?_⟩
      · simp [pushQ, htl']
      · refine ⟨?_, rfl, ?_, by simp [qidsOf], ?_⟩
        · rw [List.nil_append, qchain_cons_iff]
          exact ⟨rfl, ⟨e, none⟩, by simp [lookupQ_cons], rfl, rfl⟩
        · rw [keysQ_cons]
          simpa [qidsOf] using hperm.cons s.fresh
        · intro i hi
          simp [qidsOf] at hi
          subst hi
          exact Nat.lt_succ_self _
  | cons p rest =>
      obtain ⟨i1, e1⟩ := p
      obtain ⟨t, ht⟩ : ∃ t, lastLink none ((i1, e1) :: rest) = some t :=
        Fourth.lastLink_some rest i1
      have htl' : s.tailPtr = some t := by rw [htl, ht]
      have htmem : t ∈ qidsOf ((i1, e1) :: rest) := by
        rcases lastLink_mem _ none t ht with hm | habs
        · exact hm
        · exact absurd habs (by simp)
      have htne : t ≠ s.fresh := Nat.ne_of_lt (hbd t htmem)
      obtain ⟨ndt, hndt⟩ := qchain_lookup hch t htmem
      have hlst0 : lookupQ ((s.fresh, ⟨e, none⟩) :: s.store) t = some ndt := by
        rw [lookupQ_cons]
        simp [htne, hndt]
      have hfreshmem : s.fresh ∉ qidsOf ((i1, e1) :: rest) := fun hm =>
        absurd (hbd _ hm) (Nat.lt_irrefl _)
      refine ⟨⟨updateQ ((s.fresh, ⟨e, none⟩) :: s.store) t
          (fun nd => { nd with next := some s.fresh }),
        s.head, some s.fresh, s.fresh + 1⟩, ?_, ?_⟩
      · simp [pushQ, htl', hlst0]
      · refine ⟨?_, ?_, ?_, ?_, ?_⟩
        · dsimp only
          rw [updateQ_cons, if_neg (Ne.symm htne)]
          exact qchain_push hch ht hfreshmem hnd
        · exact (Fourth.lastLink_snoc none ((i1, e1) :: rest) s.fresh e).symm
        · rw [keysQ_updateQ, keysQ_cons]
          have h1 : (s.fresh :: keysQ s.store).Perm
              (s.fresh :: qidsOf ((i1, e1) :: rest)) := hperm.cons _
          have h2 : (s.fresh :: qidsOf ((i1, e1) :: rest)).Perm
              (qidsOf ((i1, e1) :: rest) ++ [s.fresh]) := by
            simpa using @List.perm_append_comm _ [s.fresh] (qidsOf ((i1, e1) :: rest))
          have h3 : qidsOf (((i1, e1) :: rest) ++ [(s.fresh, e)])
              = qidsOf ((i1, e1) :: rest) ++ [s.fresh] := by
            simp [qidsOf]
          rw [h3]
          exact h1.trans h2
        · have h2 : (s.fresh :: qidsOf ((i1, e1) :: rest)).Perm
              (qidsOf ((i1, e1) :: rest) ++ [s.fresh]) := by
            simpa using @List.perm_append_comm _ [s.fresh] (qidsOf ((i1, e1) :: rest))
          have h3 : qidsOf (((i1, e1) :: rest) ++ [(s.fresh, e)])
              = qidsOf ((i1, e1) :: rest) ++ [s.fresh] := by
            simp [qidsOf]
          rw [h3]
          exact h2.nodup (List.nodup_cons.mpr ⟨hfreshmem, hnd⟩)
        · intro k hk
          have h3 : qidsOf (((i1, e1) :: rest) ++ [(s.fresh, e)])
              = qidsOf ((i1, e1) :: rest) ++ [s.fresh] := by
            simp [qidsOf]
          rw [h3, List.mem_append] at hk
          rcases hk with hk | hk
          · exact Nat.lt_succ_of_lt (hbd k hk)
          · simp at hk
            subst hk
            exact Nat.lt_succ_self _

/-- `pop` on a modelled empty queue returns `None` and changes nothing. -/
theorem popQ_models_nil {s : QState T} (h : modelsQ s []) : popQ s = some (none, s) := by
  have hh : s.head = none := h.1
  simp [popQ, hh]

/-- `pop` on a modelled non-empty queue returns the front element and, when it
drains the queue, resets the tail pointer to null. -/
theorem popQ_models_cons {s : QState T} {i : Nat} {e : T} {l : List (Nat × T)}
    (h : modelsQ s ((i, e) :: l)) :
    ∃ s', popQ s = some (some e, s') ∧ modelsQ s' l := by
  obtain ⟨hch, htl, hperm, hnd, hbd⟩ := h
  rw [qchain_cons_iff] at hch
  obtain ⟨hh, nd, hl, hev, hrest⟩ := hch
  have hiNotMem : i ∉ qidsOf l := (List.nodup_cons.mp hnd).1
  cases l with
  | nil =>
      have hnx : nd.next = none := hrest
      refine ⟨⟨removeQ s.store i, none, none, s.fresh⟩, ?_, ?_⟩
      · simp [popQ, hh, hl, hnx, hev]
      · refine ⟨rfl, rfl, ?_, by simp [qidsOf], by simp [qidsOf]⟩
        rw [keysQ_removeQ, List.perm_singleton.mp hperm]
        simp [qidsOf]
  | cons q rest2 =>
      obtain ⟨j, f0⟩ := q
      rw [qchain_cons_iff] at hrest
      obtain ⟨hnx, ndj, hlj, hevj, hrest2⟩ := hrest
      have hjne : j ≠ i := by
        intro he
        apply hiNotMem
        rw [qidsOf_cons, he]
        exact List.mem_cons_self _ _
      refine ⟨⟨removeQ s.store i, some j, s.tailPtr, s.fresh⟩, ?_, ?_⟩
      · simp [popQ, hh, hl, hnx, hev]
      · refine ⟨?_, ?_, ?_, (List.nodup_cons.mp hnd).2, ?_⟩
        · rw [qchain_cons_iff]
          refine ⟨rfl, ndj, ?_, hevj, ?_⟩
          · rw [lookupQ_removeQ]
            simp [hjne, hlj]
          · refine qchain_congr hrest2 ?_
            intro k hk
            have hki : k ≠ i := by
              intro he
              rw [he] at hk
              exact hiNotMem (List.mem_cons_of_mem _ hk)
            rw [lookupQ_removeQ]
            simp [hki]
        · exact htl
        · rw [keysQ_removeQ]
          have hp := hperm.filter (fun a => a ≠ i)
          have hfi : (qidsOf ((i, e) :: (j, f0) :: rest2)).filter (fun a => a ≠ i)
              = qidsOf ((j, f0) :: rest2) := by
            rw [qidsOf_cons, List.filter_cons_of_neg (by simp)]
            refine List.filter_eq_self.mpr ?_
            intro a ha
            simp only [decide_eq_true_eq]
            intro he
            rw [he] at ha
            exact hiNotMem ha
          rw [hfi] at hp
          exact hp
        · intro k hk
          exact hbd k (List.mem_cons_of_mem _ hk)

/-- Refinement: any operation sequence from a modelled queue state runs
without undefined behaviour and produces exactly the outputs of the ideal
functional FIFO queue. -/
theorem runQ_models : ∀ (ops : List (QOp T)) (s : QState T) (l : List (Nat × T)),
    modelsQ s l →
    ∃ s' l', runQ ops s = some ((specRun ops (l.map Prod.snd)).2, s') ∧
      modelsQ s' l' ∧ l'.map Prod.snd = (specRun ops (l.map Prod.snd)).1 := by
  intro ops
  induction ops with
  | nil =>
      intro s l h
      exact ⟨s, l, rfl, h, rfl⟩
  | cons op rest ih =>
      intro s l h
      cases op with
      | push e =>
          obtain ⟨s2, heq, hm2⟩ := pushQ_models (e := e) h
          obtain ⟨s', l', heq2, hm, hmap⟩ := ih s2 (l ++ [(s.fresh, e)]) hm2
          refine ⟨s', l', ?_, hm, ?_⟩
          · rw [show (l ++ [(s.fresh, e)]).map Prod.snd
                = l.map Prod.snd ++ [e] by simp] at heq2
            simp [runQ, heq, heq2, specRun]
          · rw [hmap]
            simp [specRun]
      | pop =>
          cases l with
          | nil =>
              obtain ⟨s', l', heq2, hm, hmap⟩ := ih s [] h
              refine ⟨s', l', ?_, hm, ?_⟩
              · simp [runQ, popQ_models_nil h, heq2, specRun]
              · rw [hmap]
                simp [specRun]
          | cons p rest2 =>
              obtain ⟨i, e⟩ := p
              obtain ⟨s2, heq, hm2⟩ := popQ_models_cons h
              obtain ⟨s', l', heq2, hm, hmap⟩ := ih s2 rest2 hm2
              refine ⟨s', l', ?_, hm, ?_⟩
              · simp [runQ, heq, heq2, specRun]
              · rw [hmap]
                simp [specRun]

/-- C10: the tail-tracked queue is FIFO and survives exhaustion: every
push/pop sequence from `List::new()` runs with no undefined behaviour (the
stale tail pointer is never dereferenced — every `push` either finds a null
tail or a live allocation), the pops return exactly what the ideal functional
FIFO queue returns (elements in push order, across drains), and in the final
state the raw tail pointer is null exactly when the queue is empty. -/
theorem c10_fifo_tail_pointer_queue (ops : List (QOp T)) :
    ∃ (s' : QState T) (l' : List (Nat × T)),
      runQ ops (newQ : QState T) = some ((specRun ops []).2, s') ∧
      l'.map Prod.snd = (specRun ops []).1 ∧
      (s'.tailPtr = none ↔ (specRun ops []).1 = []) := by
  obtain ⟨s', l', heq, hm, hmap⟩ := runQ_models ops newQ [] modelsQ_nil
  refine ⟨s', l', heq, hmap, ?_⟩
  have htl : s'.tailPtr = lastLink none l' := hm.2.1
  cases l'0 : l' with
  | nil =>
      rw [l'0] at htl hmap
      constructor
      · intro _
        exact hmap.symm
      · intro _
        exact htl
  | cons p rest =>
      obtain ⟨i1, e1⟩ := p
      rw [l'0] at htl hmap
      obtain ⟨k, hk⟩ : ∃ k, lastLink none ((i1, e1) :: rest) = some k :=
        Fourth.lastLink_some rest i1
      rw [hk] at htl
      constructor
      · intro habs
        rw [htl] at habs
        exact absurd habs (by simp)
      · intro habs
        have hcontra : List.map Prod.snd ((i1, e1) :: rest) = [] := hmap.trans habs
        exact absurd hcontra (by simp)

end Fifth
